import Mathlib

/-!
Verification development for the 2D solid-geometry collision engine in
src/bsp of the venture repository.

The Go source (src/bsp/bsp.go, src/bsp/cgal.go) is shallowly embedded:

* float32 coordinates are idealised as rationals (exact arithmetic); the
  module-wide epsilon 0.0001 becomes the rational 1/10000;
* math.Sqrt, which the source uses only inside Vector2.Normalize, is an
  abstract parameter sqrt threaded through the builder functions (every
  theorem quantifies over it, adding the positivity facts a claim needs;
  qSqrt below is a concrete instance used for witnesses, exact on the
  perfect squares they touch);
* the flat node array is a List BSPNode and int32 node indices are Int;
  the nil-pointer check of the Go queries cannot fire in this model since
  a List holds no nil entries, and index arithmetic never approaches the
  int32 range so wrap-around is not modelled;
* PartitionPolygonConvex delegates to an external CGAL routine through
  cgo; it is modelled as an abstract parameter
  part : Polygon -> Option (List Polygon), none standing for the error
  case of the Go function;
* the Go query and merge functions recurse through child indices and are
  not structurally recursive, so each is defined with an explicit fuel
  argument; the exported wrapper fixes fuel high enough for every
  terminating walk, and the development proves the wrapper satisfies the
  recursion equations of the source;
* BSPBuilder methods that append to the node array are state passing
  functions Builder -> value x Builder, evaluated in the order of the Go
  statements.
-/

/-- 2D point, from type Point in bsp.go. -/
structure Point where
  x : ℚ
  y : ℚ
deriving DecidableEq

/-- 2D vector, from type Vector2 in bsp.go. -/
structure Vector2 where
  x : ℚ
  y : ℚ
deriving DecidableEq

/-- Collision polygon, from type Polygon in bsp.go. -/
structure Polygon where
  vertices : List Point
  isSolid : Bool
deriving DecidableEq

/-- Vector2.Normalize from bsp.go. math.Sqrt is the abstract parameter
sqrt; the zero-length guard of the source is kept verbatim. -/
def Vector2.Normalize (sqrt : ℚ → ℚ) (v : Vector2) : Vector2 :=
  let length := sqrt (v.x * v.x + v.y * v.y)
  if length = 0 then ⟨0, 0⟩ else ⟨v.x / length, v.y / length⟩

/-- Vector2.Dot from bsp.go. -/
def Vector2.Dot (v other : Vector2) : ℚ :=
  v.x * other.x + v.y * other.y

/-- Oriented line (plane in 2D), from type Line in bsp.go. -/
structure Line where
  normal : Vector2
  distance : ℚ
deriving DecidableEq

/-- Line.PointSide from bsp.go: signed distance of a point to the line. -/
def Line.PointSide (l : Line) (p : Point) : ℚ :=
  l.normal.x * p.x + l.normal.y * p.y - l.distance

/-- The module-wide epsilon, 0.0001 in bsp.go. -/
def epsilon : ℚ := 1 / 10000

/-- A concrete square root function on rationals: exact on rationals
whose numerator and denominator are perfect squares (the only values the
witnesses feed it), used to instantiate the abstract sqrt parameter. -/
def qSqrt (q : ℚ) : ℚ :=
  (Nat.sqrt q.num.toNat : ℚ) / (Nat.sqrt q.den : ℚ)

/-- BSP node, from the protobuf message BSPNode: a tagged union of a leaf
(sector id, polygon indices, solid flag) and a split
(plane normal, plane distance, child indices into the flat array). -/
inductive BSPNode where
  | leaf (sectorId : Int) (polygonIndices : List Int) (isSolid : Bool)
  | split (normalX normalY distance : ℚ) (frontIndex backIndex : Int)
deriving DecidableEq

/-- Level data, from the protobuf message LevelData: flat node array plus
root index. -/
structure LevelData where
  nodes : List BSPNode
  rootIndex : Int
deriving DecidableEq

/-- In-range lookup into the flat node array at an int32 index; none
models the out-of-range cases that the Go functions either test
explicitly (the queries) or cannot reach (the builder). -/
def nodeAt (nodes : List BSPNode) (i : Int) : Option BSPNode :=
  if 0 ≤ i then nodes[i.toNat]? else none

/-- BSPBuilder from bsp.go, reduced to the node array it grows; the input
polygon list is passed to Build directly. -/
structure Builder where
  nodes : List BSPNode
deriving DecidableEq

/-- addLeafNode from bsp.go: appends a leaf node, returns its index. -/
def addLeafNode (b : Builder) (sectorId : Int) (polygonIndices : List Int)
    (isSolid : Bool) : Int × Builder :=
  (b.nodes.length, ⟨b.nodes ++ [.leaf sectorId polygonIndices isSolid]⟩)

/-- addSplitNode from bsp.go: appends a split node, returns its index. -/
def addSplitNode (b : Builder) (normalX normalY distance : ℚ)
    (frontIdx backIdx : Int) : Int × Builder :=
  (b.nodes.length, ⟨b.nodes ++ [.split normalX normalY distance frontIdx backIdx]⟩)

/-- Vertex access with the wrap-around of the Go builder
(poly.Vertices[i % len]); the default value is never reached on the
in-range indices the builder uses. -/
def vtx (p : Polygon) (i : ℕ) : Point :=
  p.vertices.getD (i % p.vertices.length) ⟨0, 0⟩

/-- Edge direction vector of edge i, bsp.go buildEdgeTest:
edge := v2 - v1 with v1 = vertices[i], v2 = vertices[(i+1) % n]. -/
def edgeVec (p : Polygon) (i : ℕ) : Vector2 :=
  ⟨(vtx p (i + 1)).x - (vtx p i).x, (vtx p (i + 1)).y - (vtx p i).y⟩

/-- The normal the builder stores for edge i, bsp.go buildEdgeTest:
Normalize((edge.y, -edge.x)). -/
def edgeNormal (sqrt : ℚ → ℚ) (p : Polygon) (i : ℕ) : Vector2 :=
  Vector2.Normalize sqrt ⟨(edgeVec p i).y, -(edgeVec p i).x⟩

/-- The plane distance the builder stores for edge i, bsp.go
buildEdgeTest: normal.x * v1.x + normal.y * v1.y. -/
def edgeDist (sqrt : ℚ → ℚ) (p : Polygon) (i : ℕ) : ℚ :=
  (edgeNormal sqrt p i).x * (vtx p i).x + (edgeNormal sqrt p i).y * (vtx p i).y

/-- buildEdgeTest from bsp.go: past the last edge a solid leaf is
emitted; otherwise an empty leaf is emitted as the front child, the rest
of the chain as the back child, and the split for this edge on top. -/
def buildEdgeTest (sqrt : ℚ → ℚ) (b : Builder) (poly : Polygon)
    (edgeIdx : ℕ) : Int × Builder :=
  if h : edgeIdx ≥ poly.vertices.length then
    addLeafNode b 0 [] true
  else
    let line : Line := ⟨edgeNormal sqrt poly edgeIdx, edgeDist sqrt poly edgeIdx⟩
    let fb := addLeafNode b 0 [] false
    let bb := buildEdgeTest sqrt fb.2 poly (edgeIdx + 1)
    addSplitNode bb.2 line.normal.x line.normal.y line.distance fb.1 bb.1
termination_by poly.vertices.length - edgeIdx
decreasing_by omega

/-- signedArea from bsp.go: the shoelace sum, written as a range sum over
the loop index. -/
def signedArea (poly : Polygon) : ℚ :=
  if poly.vertices.length < 3 then 0
  else (∑ i ∈ Finset.range poly.vertices.length,
    ((vtx poly i).x * (vtx poly (i + 1)).y - (vtx poly (i + 1)).x * (vtx poly i).y)) / 2

/-- isCCW from bsp.go. -/
def isCCW (poly : Polygon) : Prop :=
  signedArea poly > 0

instance : DecidablePred isCCW := fun p => by
  unfold isCCW; infer_instance

/-- ensureCCW from bsp.go: reverse the vertex order when the winding is
clockwise. -/
def ensureCCW (poly : Polygon) : Polygon :=
  if isCCW poly then poly else ⟨poly.vertices.reverse, poly.isSolid⟩

/-- buildConvexPolygonTree from bsp.go. -/
def buildConvexPolygonTree (sqrt : ℚ → ℚ) (b : Builder) (poly : Polygon) :
    Int × Builder :=
  if poly.vertices.length < 3 then addLeafNode b 0 [] false
  else buildEdgeTest sqrt b (ensureCCW poly) 0

/-- splitTree from bsp.go: the conservative identity clip that returns
the input tree index for both half-spaces in every case of its match. -/
def splitTree (b : Builder) (treeIdx : Int) (splitLine : Line) : Int × Int :=
  match nodeAt b.nodes treeIdx with
  | none => (treeIdx, treeIdx)
  | some (.leaf _ _ _) => (treeIdx, treeIdx)
  | some (.split _ _ _ _ _) =>
      let _ := splitLine
      (treeIdx, treeIdx)

/-- Fuel-indexed mergeTreePair from bsp.go; the recursion descends
through child indices of the first tree, so for the well-formed states
the builder produces fuel tree1Idx.toNat + 1 is enough (children of node
i always have indices below i). The fallback (tree1Idx, b) is never
reached then; in Go an out-of-range index would panic instead. -/
def mergePairF : ℕ → Builder → Int → Int → Int × Builder
  | 0, b, tree1Idx, _ => (tree1Idx, b)
  | fuel + 1, b, tree1Idx, tree2Idx =>
      match nodeAt b.nodes tree1Idx with
      | none => (tree1Idx, b)
      | some (.leaf _ _ s) => if s then (tree1Idx, b) else (tree2Idx, b)
      | some (.split nx ny d f bk) =>
          let line : Line := ⟨⟨nx, ny⟩, d⟩
          let t2 := splitTree b tree2Idx line
          let fm := mergePairF fuel b f t2.1
          let bm := mergePairF fuel fm.2 bk t2.2
          addSplitNode bm.2 nx ny d fm.1 bm.1

/-- mergeTreePair from bsp.go. -/
def mergeTreePair (b : Builder) (tree1Idx tree2Idx : Int) : Int × Builder :=
  mergePairF (tree1Idx.toNat + 1) b tree1Idx tree2Idx

/-- mergeTrees from bsp.go: empty list gives an empty leaf, a singleton
is returned as is, otherwise the first tree is merged with the merge of
the rest (the argument b.mergeTrees(rest) is evaluated first, mutating
the builder, then mergeTreePair runs on the updated builder). -/
def mergeTrees (b : Builder) : List Int → Int × Builder
  | [] => addLeafNode b 0 [] false
  | [t] => (t, b)
  | t :: rest => (fun r => mergeTreePair r.2 t r.1) (mergeTrees b rest)

/-- Loop body of step 1 of Build (bsp.go): partition each input polygon,
skipping with continue any polygon on which the partitioner errors. -/
def collectStep (part : Polygon → Option (List Polygon))
    (acc : List Polygon) (poly : Polygon) : List Polygon :=
  match part poly with
  | none => acc
  | some pieces => acc ++ pieces

/-- Loop body of step 2 of Build (bsp.go): build a chain for each solid
convex piece with at least 3 vertices, collecting the root indices. -/
def chainStep (sqrt : ℚ → ℚ) (acc : List Int × Builder) (poly : Polygon) :
    List Int × Builder :=
  if poly.isSolid ∧ poly.vertices.length ≥ 3 then
    ((fun r => (acc.1 ++ [r.1], r.2)) (buildConvexPolygonTree sqrt acc.2 poly))
  else acc

/-- Build from bsp.go, with the cgo partitioner abstracted as part
(none = the error return of PartitionPolygonConvex, whose pieces are
skipped with continue). Step 1 collects the convex pieces, step 2 builds
a chain per solid piece with at least 3 vertices, then the root is an
empty leaf, the single chain, or the merge of all chains. -/
def Build (sqrt : ℚ → ℚ) (part : Polygon → Option (List Polygon))
    (polygons : List Polygon) : LevelData :=
  let convexPolygons := polygons.foldl (collectStep part) []
  let step2 := convexPolygons.foldl (chainStep sqrt) ([], ⟨[]⟩)
  let root :=
    if step2.1.length = 0 then addLeafNode step2.2 0 [] false
    else if step2.1.length = 1 then (step2.1.getD 0 0, step2.2)
    else mergeTrees step2.2 step2.1
  ⟨root.2.nodes, root.1⟩

/-- One step of PointInBSP (bsp.go, PointInBSP): out of range gives
false, a leaf halts with its solid flag, a split forwards to the front
child exactly when the signed distance is strictly positive, otherwise
to the back child. -/
def pointStep (nodes : List BSPNode) (p : Point) (i : Int) : Sum Bool Int :=
  match nodeAt nodes i with
  | none => .inl false
  | some (.leaf _ _ s) => .inl s
  | some (.split nx ny d f bk) =>
      let line : Line := ⟨⟨nx, ny⟩, d⟩
      if line.PointSide p > 0 then .inr f else .inr bk

/-- Fuel-indexed iteration of pointStep; PointInBSP in the Go source is
the infinite-fuel limit, which agrees with fuel nodes.length + 1 on every
input on which the source terminates. -/
def pointInF : ℕ → List BSPNode → Int → Point → Bool
  | 0, _, _, _ => false
  | fuel + 1, nodes, i, p =>
      match pointStep nodes p i with
      | .inl b => b
      | .inr j => pointInF fuel nodes j p

/-- PointInBSP from bsp.go. -/
def PointInBSP (nodes : List BSPNode) (i : Int) (p : Point) : Bool :=
  pointInF (nodes.length + 1) nodes i p

/-- Linear interpolation between the global trace endpoints, bsp.go
LineTraceBSPNode: from + t * (to - from), componentwise. -/
def lerp (a c : Point) (t : ℚ) : Point :=
  ⟨a.x + t * (c.x - a.x), a.y + t * (c.y - a.y)⟩

/-- The crossing parameter of the trace, bsp.go LineTraceBSPNode:
t = -d0 / (d1 - d0). -/
def crossParam (d0 d1 : ℚ) : ℚ :=
  -d0 / (d1 - d0)

/-- The crossing case of the trace at a split: neither both endpoint
distances above epsilon nor both at most epsilon (the two if conditions
of bsp.go LineTraceBSPNode both fail). -/
def crossingCase (d0 d1 : ℚ) : Prop :=
  ¬(d0 > epsilon ∧ d1 > epsilon) ∧ ¬(d0 ≤ epsilon ∧ d1 ≤ epsilon)

instance : ∀ d0 d1, Decidable (crossingCase d0 d1) := fun d0 d1 => by
  unfold crossingCase; infer_instance

/-- Fuel-indexed LineTraceBSPNode from bsp.go. The segment endpoints for
the current recursion level are recomputed from the global endpoints and
the parametric window [t0, t1]; a solid leaf reports a hit at the entry
point p0; at a split the segment either lies on one side or crosses the
plane, in which case the near side (by the sign of d0) is searched first
on [t0, tMid], then the far side on [tMid, t1]. -/
def lineTraceF : ℕ → List BSPNode → Int → Point → Point → ℚ → ℚ → Bool × ℚ × ℚ
  | 0, _, _, _, _, _, _ => (false, 0, 0)
  | fuel + 1, nodes, i, a, c, t0, t1 =>
      match nodeAt nodes i with
      | none => (false, 0, 0)
      | some node =>
          let p0 := lerp a c t0
          let p1 := lerp a c t1
          match node with
          | .leaf _ _ s => if s then (true, p0.x, p0.y) else (false, 0, 0)
          | .split nx ny d f bk =>
              let d0 := nx * p0.x + ny * p0.y - d
              let d1 := nx * p1.x + ny * p1.y - d
              if d0 > epsilon ∧ d1 > epsilon then
                lineTraceF fuel nodes f a c t0 t1
              else if d0 ≤ epsilon ∧ d1 ≤ epsilon then
                lineTraceF fuel nodes bk a c t0 t1
              else
                let t := crossParam d0 d1
                let tMid := t0 + t * (t1 - t0)
                let near := if d0 > 0 then f else bk
                let far := if d0 > 0 then bk else f
                let hitNear := lineTraceF fuel nodes near a c t0 tMid
                if hitNear.1 then hitNear
                else lineTraceF fuel nodes far a c tMid t1

/-- LineTraceBSPNode from bsp.go. -/
def LineTraceBSPNode (nodes : List BSPNode) (i : Int) (a c : Point)
    (t0 t1 : ℚ) : Bool × ℚ × ℚ :=
  lineTraceF (nodes.length + 1) nodes i a c t0 t1

example : PointInBSP [.leaf 0 [] true] 0 ⟨0, 0⟩ = true := by
  simp [PointInBSP, pointInF, pointStep, nodeAt]
example : PointInBSP [.leaf 0 [] true] 1 ⟨0, 0⟩ = false := by
  simp [PointInBSP, pointInF, pointStep, nodeAt]
example : PointInBSP [.leaf 0 [] false, .leaf 0 [] true, .split 1 0 0 1 0] 2 ⟨2, 0⟩ = true := by
  simp [PointInBSP, pointInF, pointStep, nodeAt, Line.PointSide]

/-! ## Well-formedness of flat node arrays

The builder only ever appends a split after both of its children are
already in the array, so in every tree it produces the child indices of
a split are nonnegative and strictly below the index of the split
itself. This section defines that invariant and the stability lemmas
that flow from it. -/

/-- Per-node well-formedness at position k: a split stores child indices
that are nonnegative and strictly below its own position. -/
def nodeWF : BSPNode → ℕ → Prop
  | .leaf _ _ _, _ => True
  | .split _ _ _ f bk, k => 0 ≤ f ∧ f.toNat < k ∧ 0 ≤ bk ∧ bk.toNat < k

instance : ∀ n k, Decidable (nodeWF n k)
  | .leaf _ _ _, _ => .isTrue trivial
  | .split _ _ _ _ _, _ => inferInstanceAs (Decidable (_ ∧ _ ∧ _ ∧ _))

/-- A flat node array is well formed when every node is. -/
def WFNodes (nodes : List BSPNode) : Prop :=
  ∀ k : Fin nodes.length, nodeWF (nodes.get k) k

instance : ∀ nodes, Decidable (WFNodes nodes) := fun nodes => by
  unfold WFNodes; infer_instance

lemma nodeAt_neg {nodes : List BSPNode} {i : Int} (h : i < 0) :
    nodeAt nodes i = none := by
  simp [nodeAt, not_le.mpr h]

lemma nodeAt_some {nodes : List BSPNode} {i : Int} {nd : BSPNode}
    (h : nodeAt nodes i = some nd) :
    0 ≤ i ∧ i.toNat < nodes.length ∧ nodes[i.toNat]? = some nd := by
  by_cases h0 : 0 ≤ i
  · simp only [nodeAt, if_pos h0] at h
    exact ⟨h0, List.getElem?_eq_some.mp h |>.1, h⟩
  · simp [nodeAt, h0] at h

lemma nodeAt_append {n₁ t : List BSPNode} {i : Int}
    (h : i.toNat < n₁.length) : nodeAt (n₁ ++ t) i = nodeAt n₁ i := by
  unfold nodeAt
  by_cases h0 : 0 ≤ i
  · simp only [if_pos h0]
    exact List.getElem?_append_left h
  · simp [h0]

lemma wf_children {nodes : List BSPNode} {i : Int} {nx ny d : ℚ} {f bk : Int}
    (hwf : WFNodes nodes) (h : nodeAt nodes i = some (.split nx ny d f bk)) :
    0 ≤ f ∧ f.toNat < i.toNat ∧ 0 ≤ bk ∧ bk.toNat < i.toNat := by
  obtain ⟨h0, hlt, hget⟩ := nodeAt_some h
  have := hwf ⟨i.toNat, hlt⟩
  rw [show nodes.get ⟨i.toNat, hlt⟩ = BSPNode.split nx ny d f bk by
    have : nodes[i.toNat]? = some (nodes.get ⟨i.toNat, hlt⟩) := by simp
    rw [this] at hget; exact Option.some_inj.mp hget] at this
  exact this

/-- The walk of the point query ignores any nodes appended after the
well-formed block containing the start index: children only point
downward. -/
lemma pointInF_append {n₁ : List BSPNode} (hwf : WFNodes n₁)
    (t : List BSPNode) :
    ∀ fuel (i : Int) p, i.toNat < n₁.length →
      pointInF fuel (n₁ ++ t) i p = pointInF fuel n₁ i p := by
  intro fuel
  induction fuel with
  | zero => intro i p _; rfl
  | succ fuel ih =>
      intro i p hi
      have hstep : pointStep (n₁ ++ t) p i = pointStep n₁ p i := by
        unfold pointStep
        rw [nodeAt_append hi]
      rw [pointInF, pointInF, hstep]
      cases hn : pointStep n₁ p i with
      | inl b => rfl
      | inr j =>
          unfold pointStep at hn
          cases hat : nodeAt n₁ i with
          | none => rw [hat] at hn; exact absurd hn (by simp)
          | some nd =>
              rw [hat] at hn
              cases nd with
              | leaf s pis b => exact absurd hn (by simp)
              | split nx ny d f bk =>
                  have hch := wf_children hwf hat
                  have hj : j.toNat < n₁.length := by
                    by_cases hs : Line.PointSide ⟨⟨nx, ny⟩, d⟩ p > 0
                    · simp only [hs, if_true] at hn
                      cases hn; omega
                    · simp only [hs, if_false] at hn
                      cases hn; omega
                  exact ih j p hj

/-- Fuel above the start index does not matter on a well-formed array:
the walk visits strictly decreasing indices. -/
lemma pointInF_fuel {nodes : List BSPNode} (hwf : WFNodes nodes) :
    ∀ fuel (i : Int) p, i.toNat < fuel →
      pointInF fuel nodes i p = pointInF (i.toNat + 1) nodes i p := by
  intro fuel
  induction fuel using Nat.strong_induction_on with
  | _ fuel ih =>
      intro i p hfuel
      match fuel, hfuel with
      | fuel + 1, hfuel =>
        rw [pointInF, pointInF]
        cases hn : pointStep nodes p i with
        | inl b => rfl
        | inr j =>
            unfold pointStep at hn
            cases hat : nodeAt nodes i with
            | none => rw [hat] at hn; exact absurd hn (by simp)
            | some nd =>
                rw [hat] at hn
                cases nd with
                | leaf s pis b => exact absurd hn (by simp)
                | split nx ny d f bk =>
                    have hch := wf_children hwf hat
                    have hj : j.toNat < i.toNat := by
                      by_cases hs : Line.PointSide ⟨⟨nx, ny⟩, d⟩ p > 0
                      · simp only [hs, if_true] at hn; cases hn; omega
                      · simp only [hs, if_false] at hn; cases hn; omega
                    have h1 : pointInF fuel nodes j p
                        = pointInF (j.toNat + 1) nodes j p :=
                      ih fuel (by omega) j p (by omega)
                    have h2 : pointInF i.toNat nodes j p
                        = pointInF (j.toNat + 1) nodes j p :=
                      ih i.toNat (by omega) j p (by omega)
                    show pointInF fuel nodes j p = pointInF i.toNat nodes j p
                    rw [h1, h2]

/-- The canonical point query on a well-formed array: fuel one more than
the start index. -/
def QW (nodes : List BSPNode) (i : Int) (p : Point) : Bool :=
  pointInF (i.toNat + 1) nodes i p

lemma PointInBSP_eq_QW {nodes : List BSPNode} (hwf : WFNodes nodes)
    (i : Int) (p : Point) : PointInBSP nodes i p = QW nodes i p := by
  by_cases h : i.toNat < nodes.length
  · exact pointInF_fuel hwf _ i p (by omega)
  · have hat : nodeAt nodes i = none := by
      unfold nodeAt
      by_cases h0 : 0 ≤ i
      · simp only [if_pos h0]
        exact List.getElem?_eq_none (by omega)
      · simp [h0]
    have hstep : pointStep nodes p i = .inl false := by
      unfold pointStep; rw [hat]
    unfold PointInBSP QW
    rw [pointInF, pointInF, hstep]

lemma QW_append {n₁ : List BSPNode} (hwf : WFNodes n₁) (t : List BSPNode)
    {i : Int} (hi : i.toNat < n₁.length) (p : Point) :
    QW (n₁ ++ t) i p = QW n₁ i p :=
  pointInF_append hwf t _ i p hi

/-- Unfolding equation of QW at a split on a well-formed array. -/
lemma QW_split {nodes : List BSPNode} (hwf : WFNodes nodes) {i : Int}
    {nx ny d : ℚ} {f bk : Int}
    (hat : nodeAt nodes i = some (.split nx ny d f bk)) (p : Point) :
    QW nodes i p
      = if Line.PointSide ⟨⟨nx, ny⟩, d⟩ p > 0 then QW nodes f p
        else QW nodes bk p := by
  have hch := wf_children hwf hat
  unfold QW
  rw [pointInF]
  unfold pointStep
  rw [hat]
  by_cases hs : Line.PointSide ⟨⟨nx, ny⟩, d⟩ p > 0
  · simp only [hs, if_true]
    exact pointInF_fuel hwf _ f p (by omega)
  · simp only [hs, if_false]
    exact pointInF_fuel hwf _ bk p (by omega)

/-- Unfolding equation of QW at a leaf. -/
lemma QW_leaf {nodes : List BSPNode} {i : Int} {sid : Int} {pis : List Int}
    {s : Bool} (hat : nodeAt nodes i = some (.leaf sid pis s)) (p : Point) :
    QW nodes i p = s := by
  unfold QW
  rw [pointInF]
  unfold pointStep
  rw [hat]

/-! ## Builder invariants

Every builder operation only appends nodes, and a split is appended
only after its children, so well-formedness is preserved and every
returned index is valid in the returned state. -/

/-- The second builder state grows the first by appending. -/
def Extends (b b' : Builder) : Prop :=
  ∃ t, b'.nodes = b.nodes ++ t

lemma Extends.refl (b : Builder) : Extends b b := ⟨[], by simp⟩

lemma Extends.trans {a b c : Builder} (h1 : Extends a b) (h2 : Extends b c) :
    Extends a c := by
  obtain ⟨t1, h1⟩ := h1
  obtain ⟨t2, h2⟩ := h2
  exact ⟨t1 ++ t2, by rw [h2, h1, List.append_assoc]⟩

lemma Extends.length {a b : Builder} (h : Extends a b) :
    a.nodes.length ≤ b.nodes.length := by
  obtain ⟨t, h⟩ := h
  simp [h]

/-- An index valid in a builder state. -/
def ValidIdx (b : Builder) (i : Int) : Prop :=
  0 ≤ i ∧ i.toNat < b.nodes.length

lemma ValidIdx.mono {a b : Builder} {i : Int} (h : Extends a b)
    (hv : ValidIdx a i) : ValidIdx b i :=
  ⟨hv.1, lt_of_lt_of_le hv.2 h.length⟩

lemma validIdx_nodeAt {b : Builder} {i : Int} (hv : ValidIdx b i) :
    ∃ nd, nodeAt b.nodes i = some nd := by
  refine ⟨b.nodes.get ⟨i.toNat, hv.2⟩, ?_⟩
  unfold nodeAt
  rw [if_pos hv.1]
  simp

lemma nodeAt_extends {a b : Builder} {i : Int} {nd : BSPNode}
    (hext : Extends a b) (h : nodeAt a.nodes i = some nd) :
    nodeAt b.nodes i = some nd := by
  obtain ⟨t, ht⟩ := hext
  rw [ht, nodeAt_append (nodeAt_some h).2.1]
  exact h

lemma WF_append_leaf {n : List BSPNode} (hwf : WFNodes n) (sid : Int)
    (pis : List Int) (s : Bool) : WFNodes (n ++ [.leaf sid pis s]) := by
  intro k
  rcases k with ⟨k, hk⟩
  simp only [List.length_append, List.length_singleton] at hk
  by_cases h : k < n.length
  · have : (n ++ [BSPNode.leaf sid pis s]).get ⟨k, by simp; omega⟩ = n.get ⟨k, h⟩ := by
      simp [List.getElem_append_left h]
    rw [this]
    exact hwf ⟨k, h⟩
  · have hk' : k = n.length := by omega
    subst hk'
    have : (n ++ [BSPNode.leaf sid pis s]).get ⟨n.length, by simp⟩
        = BSPNode.leaf sid pis s := by
      simp
    rw [this]
    trivial

lemma WF_append_split {n : List BSPNode} (hwf : WFNodes n) {nx ny d : ℚ}
    {f bk : Int} (hf0 : 0 ≤ f) (hf : f.toNat < n.length) (hb0 : 0 ≤ bk)
    (hb : bk.toNat < n.length) : WFNodes (n ++ [.split nx ny d f bk]) := by
  intro k
  rcases k with ⟨k, hk⟩
  simp only [List.length_append, List.length_singleton] at hk
  by_cases h : k < n.length
  · have : (n ++ [BSPNode.split nx ny d f bk]).get ⟨k, by simp; omega⟩
        = n.get ⟨k, h⟩ := by
      simp [List.getElem_append_left h]
    rw [this]
    exact hwf ⟨k, h⟩
  · have hk' : k = n.length := by omega
    subst hk'
    have : (n ++ [BSPNode.split nx ny d f bk]).get ⟨n.length, by simp⟩
        = BSPNode.split nx ny d f bk := by
      simp
    rw [this]
    exact ⟨hf0, hf, hb0, hb⟩

lemma addLeafNode_wf {b : Builder} (hwf : WFNodes b.nodes) (sid : Int)
    (pis : List Int) (s : Bool) :
    WFNodes (addLeafNode b sid pis s).2.nodes
      ∧ Extends b (addLeafNode b sid pis s).2
      ∧ ValidIdx (addLeafNode b sid pis s).2 (addLeafNode b sid pis s).1 := by
  refine ⟨WF_append_leaf hwf sid pis s, ⟨[.leaf sid pis s], rfl⟩, ?_⟩
  constructor
  · simp [addLeafNode]
  · simp [addLeafNode]

lemma addSplitNode_wf {b : Builder} (hwf : WFNodes b.nodes) {nx ny d : ℚ}
    {f bk : Int} (hf : ValidIdx b f) (hb : ValidIdx b bk) :
    WFNodes (addSplitNode b nx ny d f bk).2.nodes
      ∧ Extends b (addSplitNode b nx ny d f bk).2
      ∧ ValidIdx (addSplitNode b nx ny d f bk).2 (addSplitNode b nx ny d f bk).1 := by
  refine ⟨WF_append_split hwf hf.1 hf.2 hb.1 hb.2, ⟨[.split nx ny d f bk], rfl⟩, ?_⟩
  constructor
  · simp [addSplitNode]
  · simp [addSplitNode]


/-- Unfolding of buildEdgeTest past the last edge. -/
lemma buildEdgeTest_base (sqrt : ℚ → ℚ) (b : Builder) (poly : Polygon)
    {k : ℕ} (hk : k ≥ poly.vertices.length) :
    buildEdgeTest sqrt b poly k = addLeafNode b 0 [] true := by
  rw [buildEdgeTest, dif_pos hk]

/-- Unfolding of buildEdgeTest at an edge: empty front leaf, recursive
back chain, split on top. -/
lemma buildEdgeTest_step (sqrt : ℚ → ℚ) (b : Builder) (poly : Polygon)
    {k : ℕ} (hk : ¬(k ≥ poly.vertices.length)) :
    buildEdgeTest sqrt b poly k =
      addSplitNode (buildEdgeTest sqrt (addLeafNode b 0 [] false).2 poly (k + 1)).2
        (edgeNormal sqrt poly k).x (edgeNormal sqrt poly k).y
        (edgeDist sqrt poly k)
        (addLeafNode b 0 [] false).1
        (buildEdgeTest sqrt (addLeafNode b 0 [] false).2 poly (k + 1)).1 := by
  conv_lhs => rw [buildEdgeTest]
  rw [dif_neg hk]

lemma buildEdgeTest_wf (sqrt : ℚ → ℚ) (poly : Polygon) :
    ∀ (k : ℕ) (b : Builder), WFNodes b.nodes →
      WFNodes (buildEdgeTest sqrt b poly k).2.nodes
        ∧ Extends b (buildEdgeTest sqrt b poly k).2
        ∧ ValidIdx (buildEdgeTest sqrt b poly k).2 (buildEdgeTest sqrt b poly k).1 := by
  have H : ∀ (m k : ℕ), poly.vertices.length - k ≤ m → ∀ b, WFNodes b.nodes →
      WFNodes (buildEdgeTest sqrt b poly k).2.nodes
        ∧ Extends b (buildEdgeTest sqrt b poly k).2
        ∧ ValidIdx (buildEdgeTest sqrt b poly k).2 (buildEdgeTest sqrt b poly k).1 := by
    intro m
    induction m with
    | zero =>
        intro k hk b hwf
        rw [buildEdgeTest_base sqrt b poly (by omega)]
        exact addLeafNode_wf hwf 0 [] true
    | succ m ih =>
        intro k hk b hwf
        by_cases hge : k ≥ poly.vertices.length
        · rw [buildEdgeTest_base sqrt b poly hge]
          exact addLeafNode_wf hwf 0 [] true
        · rw [buildEdgeTest_step sqrt b poly hge]
          obtain ⟨hwf1, hext1, hv1⟩ := addLeafNode_wf hwf 0 [] false
          obtain ⟨hwf2, hext2, hv2⟩ := ih (k + 1) (by omega) _ hwf1
          obtain ⟨hwf3, hext3, hv3⟩ :=
            @addSplitNode_wf _ hwf2 (edgeNormal sqrt poly k).x
              (edgeNormal sqrt poly k).y (edgeDist sqrt poly k) _ _
              (hv1.mono hext2) hv2
          exact ⟨hwf3, (hext1.trans hext2).trans hext3, hv3⟩
  intro k b hwf
  exact H (poly.vertices.length - k) k (le_refl _) b hwf

lemma buildConvexPolygonTree_wf (sqrt : ℚ → ℚ) (poly : Polygon)
    (b : Builder) (hwf : WFNodes b.nodes) :
    WFNodes (buildConvexPolygonTree sqrt b poly).2.nodes
      ∧ Extends b (buildConvexPolygonTree sqrt b poly).2
      ∧ ValidIdx (buildConvexPolygonTree sqrt b poly).2
          (buildConvexPolygonTree sqrt b poly).1 := by
  unfold buildConvexPolygonTree
  by_cases h : poly.vertices.length < 3
  · rw [if_pos h]
    exact addLeafNode_wf hwf 0 [] false
  · rw [if_neg h]
    exact buildEdgeTest_wf sqrt (ensureCCW poly) 0 b hwf

/-- splitTree returns the input index for both halves, whatever the tree
and the plane. -/
lemma splitTree_id (b : Builder) (treeIdx : Int) (splitLine : Line) :
    splitTree b treeIdx splitLine = (treeIdx, treeIdx) := by
  unfold splitTree
  cases h : nodeAt b.nodes treeIdx with
  | none => rfl
  | some nd => cases nd <;> rfl

/-- Unfolding of mergePairF when the first tree is a leaf. -/
lemma mergePairF_leaf (fuel : ℕ) (b : Builder) {i1 : Int} (i2 : Int)
    {sid : Int} {pis : List Int} {s : Bool}
    (hat : nodeAt b.nodes i1 = some (.leaf sid pis s)) :
    mergePairF (fuel + 1) b i1 i2 = if s then (i1, b) else (i2, b) := by
  rw [mergePairF, hat]

/-- Unfolding of mergePairF when the first tree is a split: merge the
children against the identity clip of the second tree, then append the
split with the same plane. -/
lemma mergePairF_split (fuel : ℕ) (b : Builder) {i1 : Int} (i2 : Int)
    {nx ny d : ℚ} {f bk : Int}
    (hat : nodeAt b.nodes i1 = some (.split nx ny d f bk)) :
    mergePairF (fuel + 1) b i1 i2 =
      addSplitNode (mergePairF fuel (mergePairF fuel b f i2).2 bk i2).2 nx ny d
        (mergePairF fuel b f i2).1
        (mergePairF fuel (mergePairF fuel b f i2).2 bk i2).1 := by
  rw [mergePairF, hat]
  simp only [splitTree_id]

lemma mergePairF_wf :
    ∀ (fuel : ℕ) (b : Builder) (i1 i2 : Int), WFNodes b.nodes →
      ValidIdx b i1 → ValidIdx b i2 →
      WFNodes (mergePairF fuel b i1 i2).2.nodes
        ∧ Extends b (mergePairF fuel b i1 i2).2
        ∧ ValidIdx (mergePairF fuel b i1 i2).2 (mergePairF fuel b i1 i2).1 := by
  intro fuel
  induction fuel with
  | zero =>
      intro b i1 i2 hwf hv1 _
      exact ⟨hwf, Extends.refl b, hv1⟩
  | succ fuel ih =>
      intro b i1 i2 hwf hv1 hv2
      obtain ⟨nd, hat⟩ := validIdx_nodeAt hv1
      cases nd with
      | leaf sid pis s =>
          rw [mergePairF_leaf fuel b i2 hat]
          cases s
          · exact ⟨hwf, Extends.refl b, hv2⟩
          · exact ⟨hwf, Extends.refl b, hv1⟩
      | split nx ny d f bk =>
          rw [mergePairF_split fuel b i2 hat]
          obtain ⟨hf0, hflt, hb0, hblt⟩ := wf_children hwf hat
          have h1len : i1.toNat < b.nodes.length := hv1.2
          have hvf : ValidIdx b f := ⟨hf0, by omega⟩
          have hvb : ValidIdx b bk := ⟨hb0, by omega⟩
          obtain ⟨hwfF, hextF, hvF⟩ := ih b f i2 hwf hvf hv2
          obtain ⟨hwfB, hextB, hvB⟩ :=
            ih (mergePairF fuel b f i2).2 bk i2 hwfF (hvb.mono hextF)
              (hv2.mono hextF)
          obtain ⟨hwfS, hextS, hvS⟩ :=
            @addSplitNode_wf _ hwfB nx ny d _ _ (hvF.mono hextB) hvB
          exact ⟨hwfS, (hextF.trans hextB).trans hextS, hvS⟩

lemma mergeTreePair_wf {b : Builder} {i1 i2 : Int} (hwf : WFNodes b.nodes)
    (hv1 : ValidIdx b i1) (hv2 : ValidIdx b i2) :
    WFNodes (mergeTreePair b i1 i2).2.nodes
      ∧ Extends b (mergeTreePair b i1 i2).2
      ∧ ValidIdx (mergeTreePair b i1 i2).2 (mergeTreePair b i1 i2).1 :=
  mergePairF_wf _ b i1 i2 hwf hv1 hv2

lemma mergeTrees_wf :
    ∀ (ts : List Int) (b : Builder), WFNodes b.nodes →
      (∀ i ∈ ts, ValidIdx b i) →
      WFNodes (mergeTrees b ts).2.nodes
        ∧ Extends b (mergeTrees b ts).2
        ∧ ValidIdx (mergeTrees b ts).2 (mergeTrees b ts).1 := by
  intro ts
  induction ts with
  | nil =>
      intro b hwf _
      exact addLeafNode_wf hwf 0 [] false
  | cons t rest ih =>
      intro b hwf hvs
      cases rest with
      | nil =>
          exact ⟨hwf, Extends.refl b, hvs t (by simp)⟩
      | cons r2 rest2 =>
          rw [show mergeTrees b (t :: r2 :: rest2)
              = mergeTreePair (mergeTrees b (r2 :: rest2)).2 t
                  (mergeTrees b (r2 :: rest2)).1 from rfl]
          obtain ⟨hwfR, hextR, hvR⟩ :=
            ih b hwf (fun i hi => hvs i (List.mem_cons_of_mem t hi))
          have hvt : ValidIdx (mergeTrees b (r2 :: rest2)).2 t :=
            (hvs t (List.mem_cons_self t _)).mono hextR
          obtain ⟨hwfP, hextP, hvP⟩ := mergeTreePair_wf hwfR hvt hvR
          exact ⟨hwfP, hextR.trans hextP, hvP⟩

/-- qSqrt at 1, used when witnesses evaluate the builder on axis-aligned
edges. -/
lemma qSqrt_one : qSqrt 1 = 1 := by
  norm_num [qSqrt]

/-- qSqrt at 2 is 1: not the real square root, but the positivity is all
the normal direction facts use. -/
lemma qSqrt_two : qSqrt 2 = 1 := by
  have h2 : Nat.sqrt 2 = 1 := (Nat.eq_sqrt.mpr (by norm_num)).symm
  have hn : (2 : ℚ).num = 2 := rfl
  have hd : (2 : ℚ).den = 1 := rfl
  have ht : (2 : Int).toNat = 2 := rfl
  rw [qSqrt, hn, hd, ht]
  norm_num [h2]

lemma chainFold_wf (sqrt : ℚ → ℚ) :
    ∀ (l : List Polygon) (acc : List Int × Builder), WFNodes acc.2.nodes →
      (∀ i ∈ acc.1, ValidIdx acc.2 i) →
      WFNodes (l.foldl (chainStep sqrt) acc).2.nodes
        ∧ Extends acc.2 (l.foldl (chainStep sqrt) acc).2
        ∧ ∀ i ∈ (l.foldl (chainStep sqrt) acc).1,
            ValidIdx (l.foldl (chainStep sqrt) acc).2 i := by
  intro l
  induction l with
  | nil =>
      intro acc hwf hvs
      exact ⟨hwf, Extends.refl acc.2, hvs⟩
  | cons poly rest ih =>
      intro acc hwf hvs
      rw [List.foldl_cons]
      by_cases hc : poly.isSolid ∧ poly.vertices.length ≥ 3
      · have hstep : chainStep sqrt acc poly
            = (acc.1 ++ [(buildConvexPolygonTree sqrt acc.2 poly).1],
               (buildConvexPolygonTree sqrt acc.2 poly).2) := by
          rw [chainStep, if_pos hc]
        obtain ⟨hwfT, hextT, hvT⟩ := buildConvexPolygonTree_wf sqrt poly acc.2 hwf
        obtain ⟨hwfR, hextR, hvR⟩ := ih (chainStep sqrt acc poly)
          (by rw [hstep]; exact hwfT)
          (by
            rw [hstep]
            intro i hi
            rcases List.mem_append.mp hi with hi | hi
            · exact ((hvs i hi).mono hextT)
            · rw [List.mem_singleton.mp hi]
              exact hvT)
        refine ⟨hwfR, ?_, hvR⟩
        refine Extends.trans ?_ hextR
        rw [hstep]
        exact hextT
      · have hstep : chainStep sqrt acc poly = acc := by
          rw [chainStep, if_neg hc]
        rw [hstep]
        exact ih acc hwf hvs

/-- The list of root indices of a one-element list is a member. -/
lemma getD_mem_of_length_one {l : List Int} (h : l.length = 1) :
    l.getD 0 0 ∈ l := by
  cases l with
  | nil => simp at h
  | cons a t => simp

/-- The tree Build returns is well formed and its root index is in
range. -/
lemma Build_wf (sqrt : ℚ → ℚ) (part : Polygon → Option (List Polygon))
    (polys : List Polygon) :
    WFNodes (Build sqrt part polys).nodes
      ∧ 0 ≤ (Build sqrt part polys).rootIndex
      ∧ (Build sqrt part polys).rootIndex.toNat
          < (Build sqrt part polys).nodes.length := by
  have hinit : WFNodes (Builder.mk []).nodes := fun k => absurd k.2 (by simp)
  obtain ⟨hwf2, _, hvs2⟩ := chainFold_wf sqrt (polys.foldl (collectStep part) [])
    ([], ⟨[]⟩) hinit (by simp)
  unfold Build
  by_cases h0 :
      ((polys.foldl (collectStep part) []).foldl (chainStep sqrt) ([], ⟨[]⟩)).1.length = 0
  · simp only [h0, if_pos rfl]
    obtain ⟨hwf, _, hv⟩ := addLeafNode_wf hwf2 0 [] false
    exact ⟨hwf, hv.1, hv.2⟩
  · simp only [if_neg h0]
    by_cases h1 :
        ((polys.foldl (collectStep part) []).foldl (chainStep sqrt) ([], ⟨[]⟩)).1.length = 1
    · simp only [h1, if_pos rfl]
      have hv := hvs2 _ (getD_mem_of_length_one h1)
      exact ⟨hwf2, hv.1, hv.2⟩
    · simp only [if_neg h1]
      obtain ⟨hwf, _, hv⟩ := mergeTrees_wf _ _ hwf2 hvs2
      exact ⟨hwf, hv.1, hv.2⟩

/-- A concrete solid triangle used by witnesses. -/
def triPoly : Polygon := ⟨[⟨0, 0⟩, ⟨1, 0⟩, ⟨0, 1⟩], true⟩

/-- A concrete solid unit square used by witnesses. -/
def usqPoly : Polygon := ⟨[⟨0, 0⟩, ⟨1, 0⟩, ⟨1, 1⟩, ⟨0, 1⟩], true⟩

/-- A partitioner that returns every polygon unchanged, the contract
behavior of PartitionPolygonConvex on convex input. -/
def partOk : Polygon → Option (List Polygon) := fun p => some [p]

/-- The concrete tree built for the triangle. -/
lemma build_tri_eval : Build qSqrt partOk [triPoly]
    = ⟨[.leaf 0 [] false, .leaf 0 [] false, .leaf 0 [] false, .leaf 0 [] true,
        .split (-1) 0 0 2 3, .split 1 1 1 1 4, .split 0 (-1) 0 0 5], 6⟩ := by
  simp [Build, collectStep, chainStep, buildConvexPolygonTree, ensureCCW, isCCW, signedArea,
    buildEdgeTest, addLeafNode, addSplitNode, edgeNormal, edgeDist, edgeVec, vtx,
    Vector2.Normalize, triPoly, partOk, Finset.sum_range_succ]
  norm_num [qSqrt_one, qSqrt_two]

/-- The concrete tree built for the unit square. -/
lemma build_usq_eval : Build qSqrt partOk [usqPoly]
    = ⟨[.leaf 0 [] false, .leaf 0 [] false, .leaf 0 [] false, .leaf 0 [] false,
        .leaf 0 [] true, .split (-1) 0 0 3 4, .split 0 1 1 2 5, .split 1 0 1 1 6,
        .split 0 (-1) 0 0 7], 8⟩ := by
  simp [Build, collectStep, chainStep, buildConvexPolygonTree, ensureCCW, isCCW, signedArea,
    buildEdgeTest, addLeafNode, addSplitNode, edgeNormal, edgeDist, edgeVec, vtx,
    Vector2.Normalize, usqPoly, partOk, Finset.sum_range_succ]
  norm_num [qSqrt_one, qSqrt_two]

/-- C5: for every tree returned by Build, every split node stores child
indices that are nonnegative, strictly below the length of the node
array, and different from the index of the split itself. -/
theorem claim_C5_children_in_range (sqrt : ℚ → ℚ)
    (part : Polygon → Option (List Polygon)) (polys : List Polygon)
    (k : ℕ) (nx ny d : ℚ) (f bk : Int)
    (hnode : (Build sqrt part polys).nodes[k]? = some (.split nx ny d f bk)) :
    (0 ≤ f ∧ f < ((Build sqrt part polys).nodes.length : Int) ∧ f ≠ (k : Int))
      ∧ (0 ≤ bk ∧ bk < ((Build sqrt part polys).nodes.length : Int)
          ∧ bk ≠ (k : Int)) := by
  obtain ⟨hwf, -, -⟩ := Build_wf sqrt part polys
  obtain ⟨hk, hgetE⟩ := List.getElem?_eq_some.mp hnode
  have hnw := hwf ⟨k, hk⟩
  rw [List.get_eq_getElem, hgetE] at hnw
  simp only [Fin.val_mk] at hnw
  obtain ⟨hf0, hflt, hb0, hblt⟩ := hnw
  exact ⟨⟨hf0, by omega, by omega⟩, hb0, by omega, by omega⟩

theorem claim_C5_witness :
    (Build qSqrt partOk [triPoly]).nodes[6]? = some (.split 0 (-1) 0 0 5)
      ∧ ((0 ≤ (0 : Int)
            ∧ (0 : Int) < ((Build qSqrt partOk [triPoly]).nodes.length : Int)
            ∧ (0 : Int) ≠ ((6 : ℕ) : Int))
          ∧ (0 ≤ (5 : Int)
              ∧ (5 : Int) < ((Build qSqrt partOk [triPoly]).nodes.length : Int)
              ∧ (5 : Int) ≠ ((6 : ℕ) : Int))) := by
  have hnode : (Build qSqrt partOk [triPoly]).nodes[6]?
      = some (.split 0 (-1) 0 0 5) := by
    rw [build_tri_eval]
    rfl
  exact ⟨hnode,
    claim_C5_children_in_range qSqrt partOk [triPoly] 6 0 (-1) 0 0 5 hnode⟩

/-! ## The per-polygon chain (claim C2)

buildEdgeTest emits, for the edges k, k+1, ..., n-1 of a polygon with n
vertices, first the empty front leaves interleaved with the recursion,
then the terminal solid leaf, then the splits in reverse edge order,
the split of edge k last, which becomes the root of the chain. -/

lemma getElem?_concat_lt {α : Type} (l : List α) (x : α) {j : ℕ}
    (h : j < l.length) : (l ++ [x])[j]? = l[j]? :=
  List.getElem?_append_left h

lemma getElem?_concat_len {α : Type} (l : List α) (x : α) :
    (l ++ [x])[l.length]? = some x := by
  simp

lemma buildEdgeTest_chain (sqrt : ℚ → ℚ) (poly : Polygon) :
    ∀ (m k : ℕ) (b : Builder), poly.vertices.length - k = m →
      k ≤ poly.vertices.length →
      (buildEdgeTest sqrt b poly k).2.nodes.length = b.nodes.length + 2 * m + 1
      ∧ (buildEdgeTest sqrt b poly k).1 = ((b.nodes.length + 2 * m : ℕ) : Int)
      ∧ (∀ j, j < b.nodes.length →
          (buildEdgeTest sqrt b poly k).2.nodes[j]? = b.nodes[j]?)
      ∧ (∀ i, k ≤ i → i < poly.vertices.length →
          (buildEdgeTest sqrt b poly k).2.nodes[b.nodes.length + (i - k)]?
            = some (.leaf 0 [] false))
      ∧ (buildEdgeTest sqrt b poly k).2.nodes[b.nodes.length + m]?
          = some (.leaf 0 [] true)
      ∧ (∀ i, k ≤ i → i < poly.vertices.length →
          (buildEdgeTest sqrt b poly k).2.nodes[b.nodes.length + m
              + (poly.vertices.length - i)]?
            = some (.split (edgeNormal sqrt poly i).x (edgeNormal sqrt poly i).y
                (edgeDist sqrt poly i)
                ((b.nodes.length + (i - k) : ℕ) : Int)
                ((b.nodes.length + m + (poly.vertices.length - 1 - i) : ℕ) : Int))) := by
  intro m
  induction m with
  | zero =>
      intro k b hm hk
      have hkn : k = poly.vertices.length := by omega
      rw [buildEdgeTest_base sqrt b poly (by omega)]
      refine ⟨by simp [addLeafNode], by simp [addLeafNode], ?_, ?_, ?_, ?_⟩
      · intro j hj
        exact getElem?_concat_lt b.nodes _ hj
      · intro i hki hin
        omega
      · simp [addLeafNode]
      · intro i hki hin
        omega
  | succ m ih =>
      intro k b hm hk
      have hge : ¬(k ≥ poly.vertices.length) := by omega
      rw [buildEdgeTest_step sqrt b poly hge]
      have hB1 : (addLeafNode b 0 [] false).2.nodes = b.nodes ++ [.leaf 0 [] false] := rfl
      have hB1len : (addLeafNode b 0 [] false).2.nodes.length = b.nodes.length + 1 := by
        rw [hB1]; simp
      obtain ⟨ihlen, ihroot, ihold, ihleaf, ihsolid, ihsplit⟩ :=
        ih (k + 1) (addLeafNode b 0 [] false).2 (by omega) (by omega)
      rw [hB1len] at ihlen ihroot ihleaf ihsolid ihsplit
      set bb := buildEdgeTest sqrt (addLeafNode b 0 [] false).2 poly (k + 1) with hbb
      have hfinal : (addSplitNode bb.2 (edgeNormal sqrt poly k).x
          (edgeNormal sqrt poly k).y (edgeDist sqrt poly k)
          (addLeafNode b 0 [] false).1 bb.1).2.nodes
          = bb.2.nodes ++ [.split (edgeNormal sqrt poly k).x
              (edgeNormal sqrt poly k).y (edgeDist sqrt poly k)
              (addLeafNode b 0 [] false).1 bb.1] := rfl
      have hfb1 : (addLeafNode b 0 [] false).1 = ((b.nodes.length : ℕ) : Int) := rfl
      refine ⟨?_, ?_, ?_, ?_, ?_, ?_⟩
      · rw [hfinal]
        simp only [List.length_append, List.length_singleton]
        omega
      · show ((bb.2.nodes.length : ℕ) : Int) = _
        rw [ihlen]
        norm_num
        omega
      · intro j hj
        rw [hfinal, getElem?_concat_lt _ _ (by omega)]
        rw [ihold j (by rw [hB1len]; omega), hB1,
          getElem?_concat_lt _ _ (by omega)]
      · intro i hki hin
        by_cases hik : i = k
        · subst hik
          have : b.nodes.length + (i - i) = b.nodes.length := by omega
          rw [this, hfinal, getElem?_concat_lt _ _ (by omega),
            ihold b.nodes.length (by rw [hB1len]; omega), hB1,
            getElem?_concat_len]
        · have h1 : b.nodes.length + (i - k) = (b.nodes.length + 1) + (i - (k + 1)) := by
            omega
          rw [h1, hfinal, getElem?_concat_lt _ _ (by omega)]
          exact ihleaf i (by omega) hin
      · have h1 : b.nodes.length + (m + 1) = (b.nodes.length + 1) + m := by omega
        rw [h1, hfinal, getElem?_concat_lt _ _ (by omega)]
        exact ihsolid
      · intro i hki hin
        by_cases hik : i = k
        · subst hik
          have hpos : b.nodes.length + (m + 1) + (poly.vertices.length - i)
              = bb.2.nodes.length := by
            rw [ihlen]; omega
          rw [hpos, hfinal, getElem?_concat_len]
          have hfront : (addLeafNode b 0 [] false).1
              = ((b.nodes.length + (i - i) : ℕ) : Int) := by
            rw [hfb1]
            have : b.nodes.length + (i - i) = b.nodes.length := by omega
            rw [this]
          have hback : bb.1
              = ((b.nodes.length + (m + 1) + (poly.vertices.length - 1 - i) : ℕ)
                  : Int) := by
            rw [ihroot]
            have : b.nodes.length + 1 + 2 * m
                = b.nodes.length + (m + 1) + (poly.vertices.length - 1 - i) := by
              omega
            rw [this]
          rw [hfront, hback]
        · have h1 : b.nodes.length + (m + 1) + (poly.vertices.length - i)
              = (b.nodes.length + 1) + m + (poly.vertices.length - i) := by omega
          rw [h1, hfinal, getElem?_concat_lt _ _ (by rw [ihlen]; omega)]
          have := ihsplit i (by omega) hin
          rw [this]
          have hfront : b.nodes.length + 1 + (i - (k + 1))
              = b.nodes.length + (i - k) := by omega
          have hback : b.nodes.length + 1 + m + (poly.vertices.length - 1 - i)
              = b.nodes.length + (m + 1) + (poly.vertices.length - 1 - i) := by
            omega
          rw [hfront, hback]

lemma ensureCCW_length (poly : Polygon) :
    (ensureCCW poly).vertices.length = poly.vertices.length := by
  unfold ensureCCW
  split
  · rfl
  · simp

/-- C2: for every polygon with n >= 3 vertices (convex or not; convexity
is not needed for the shape), the per-polygon builder, after CCW
normalization, appends exactly n split nodes and n + 1 leaf nodes: empty
leaves at offsets 0..n-1, the solid leaf at offset n, and the split for
edge i at offset n + (n - i), whose front child is the empty leaf at
offset i and whose back child is the split for edge i + 1 (the solid
leaf after the last edge); the returned root is the split for edge 0 at
offset 2n. -/
theorem claim_C2_chain_shape (sqrt : ℚ → ℚ) (b : Builder) (poly : Polygon)
    (h3 : 3 ≤ poly.vertices.length) :
    (buildConvexPolygonTree sqrt b poly).2.nodes.length
        = b.nodes.length + 2 * poly.vertices.length + 1
      ∧ (buildConvexPolygonTree sqrt b poly).1
          = ((b.nodes.length + 2 * poly.vertices.length : ℕ) : Int)
      ∧ (∀ i, i < poly.vertices.length →
          (buildConvexPolygonTree sqrt b poly).2.nodes[b.nodes.length + i]?
            = some (.leaf 0 [] false))
      ∧ (buildConvexPolygonTree sqrt b
            poly).2.nodes[b.nodes.length + poly.vertices.length]?
          = some (.leaf 0 [] true)
      ∧ (∀ i, i < poly.vertices.length →
          (buildConvexPolygonTree sqrt b poly).2.nodes[b.nodes.length
              + poly.vertices.length + (poly.vertices.length - i)]?
            = some (.split (edgeNormal sqrt (ensureCCW poly) i).x
                (edgeNormal sqrt (ensureCCW poly) i).y
                (edgeDist sqrt (ensureCCW poly) i)
                ((b.nodes.length + i : ℕ) : Int)
                ((b.nodes.length + poly.vertices.length
                    + (poly.vertices.length - 1 - i) : ℕ) : Int))) := by
  have hne : ¬(poly.vertices.length < 3) := by omega
  have hq : (ensureCCW poly).vertices.length = poly.vertices.length :=
    ensureCCW_length poly
  have hbct : buildConvexPolygonTree sqrt b poly
      = buildEdgeTest sqrt b (ensureCCW poly) 0 := by
    unfold buildConvexPolygonTree
    rw [if_neg hne]
  obtain ⟨hlen, hroot, _, hleaf, hsolid, hsplit⟩ :=
    buildEdgeTest_chain sqrt (ensureCCW poly) (ensureCCW poly).vertices.length
      0 b (by omega) (by omega)
  rw [hq] at hlen hroot hleaf hsolid hsplit
  rw [hbct]
  refine ⟨hlen, hroot, ?_, hsolid, ?_⟩
  · intro i hi
    have := hleaf i (by omega) (by omega)
    rwa [Nat.sub_zero] at this
  · intro i hi
    have := hsplit i (by omega) (by omega)
    rwa [Nat.sub_zero] at this

theorem claim_C2_witness :
    (buildConvexPolygonTree qSqrt ⟨[]⟩ triPoly).2.nodes.length = 7
      ∧ (buildConvexPolygonTree qSqrt ⟨[]⟩ triPoly).1 = (6 : Int)
      ∧ (buildConvexPolygonTree qSqrt ⟨[]⟩ triPoly).2.nodes[3]?
          = some (.leaf 0 [] true) := by
  obtain ⟨hlen, hroot, -, hsolid, -⟩ :=
    claim_C2_chain_shape qSqrt ⟨[]⟩ triPoly (by norm_num [triPoly])
  have h3 : triPoly.vertices.length = 3 := by norm_num [triPoly]
  have h0 : (Builder.mk []).nodes.length = 0 := rfl
  rw [h3, h0] at hlen hroot hsolid
  exact ⟨by rw [hlen], by rw [hroot]; rfl, hsolid⟩

/-! ## The merge recurrence (claims C3 and C7) -/

lemma mergePairF_none (fuel : ℕ) (b : Builder) {i1 : Int} (i2 : Int)
    (hat : nodeAt b.nodes i1 = none) :
    mergePairF (fuel + 1) b i1 i2 = (i1, b) := by
  rw [mergePairF, hat]

/-- Fuel above the first tree index does not matter on a well-formed
state: the merge descends through strictly decreasing indices of the
first tree. -/
lemma mergePairF_fuel :
    ∀ (fuel : ℕ) (b : Builder) (i1 i2 : Int), WFNodes b.nodes →
      ValidIdx b i2 → i1.toNat < fuel →
      mergePairF fuel b i1 i2 = mergePairF (i1.toNat + 1) b i1 i2 := by
  intro fuel
  induction fuel using Nat.strong_induction_on with
  | _ fuel ih =>
      intro b i1 i2 hwf hv2 hfuel
      match fuel, hfuel with
      | fuel + 1, hfuel =>
        cases hat : nodeAt b.nodes i1 with
        | none =>
            rw [mergePairF_none fuel b i2 hat, mergePairF_none i1.toNat b i2 hat]
        | some nd =>
            cases nd with
            | leaf sid pis s =>
                rw [mergePairF_leaf fuel b i2 hat,
                  mergePairF_leaf i1.toNat b i2 hat]
            | split nx ny d fr bk =>
                rw [mergePairF_split fuel b i2 hat,
                  mergePairF_split i1.toNat b i2 hat]
                obtain ⟨hf0, hflt, hb0, hblt⟩ := wf_children hwf hat
                have h1len : i1.toNat < b.nodes.length := (nodeAt_some hat).2.1
                have hvf : ValidIdx b fr := ⟨hf0, by omega⟩
                have hfm1 : mergePairF fuel b fr i2
                    = mergePairF (fr.toNat + 1) b fr i2 :=
                  ih fuel (by omega) b fr i2 hwf hv2 (by omega)
                have hfm2 : mergePairF i1.toNat b fr i2
                    = mergePairF (fr.toNat + 1) b fr i2 :=
                  ih i1.toNat (by omega) b fr i2 hwf hv2 (by omega)
                obtain ⟨hwfF, hextF, -⟩ :=
                  mergePairF_wf (fr.toNat + 1) b fr i2 hwf hvf hv2
                have hbm1 : mergePairF fuel (mergePairF (fr.toNat + 1) b fr i2).2 bk i2
                    = mergePairF (bk.toNat + 1)
                        (mergePairF (fr.toNat + 1) b fr i2).2 bk i2 :=
                  ih fuel (by omega) _ bk i2 hwfF (hv2.mono hextF) (by omega)
                have hbm2 : mergePairF i1.toNat
                      (mergePairF (fr.toNat + 1) b fr i2).2 bk i2
                    = mergePairF (bk.toNat + 1)
                        (mergePairF (fr.toNat + 1) b fr i2).2 bk i2 :=
                  ih i1.toNat (by omega) _ bk i2 hwfF (hv2.mono hextF) (by omega)
                rw [hfm1, hfm2, hbm1, hbm2]

/-- The recursion equation of the exported pairwise merge at a split,
with the children merged through the wrapper itself. -/
lemma mergeTreePair_split {b : Builder} {i1 : Int} (i2 : Int) {nx ny d : ℚ}
    {fr bk : Int} (hwf : WFNodes b.nodes) (hv2 : ValidIdx b i2)
    (hat : nodeAt b.nodes i1 = some (.split nx ny d fr bk)) :
    mergeTreePair b i1 i2 =
      addSplitNode (mergeTreePair (mergeTreePair b fr i2).2 bk i2).2 nx ny d
        (mergeTreePair b fr i2).1
        (mergeTreePair (mergeTreePair b fr i2).2 bk i2).1 := by
  obtain ⟨hf0, hflt, hb0, hblt⟩ := wf_children hwf hat
  have h1len : i1.toNat < b.nodes.length := (nodeAt_some hat).2.1
  have hvf : ValidIdx b fr := ⟨hf0, by omega⟩
  show mergePairF (i1.toNat + 1) b i1 i2 = _
  rw [mergePairF_split i1.toNat b i2 hat]
  have hfm : mergePairF i1.toNat b fr i2 = mergeTreePair b fr i2 :=
    mergePairF_fuel i1.toNat b fr i2 hwf hv2 (by omega)
  obtain ⟨hwfF, hextF, -⟩ := mergeTreePair_wf hwf hvf hv2
  have hbm : mergePairF i1.toNat (mergeTreePair b fr i2).2 bk i2
      = mergeTreePair (mergeTreePair b fr i2).2 bk i2 :=
    mergePairF_fuel i1.toNat _ bk i2 hwfF (hv2.mono hextF) (by omega)
  rw [hfm, hbm]

/-- C3: the pairwise merge follows the OR-merge recurrence of the spec
exactly, and splitTree is the identity clip. On a well-formed state with
a valid second tree: a solid leaf absorbs, an empty leaf yields the
second tree, and a split re-emits its plane over the merges of its
children with the two splitTree halves of the second tree; splitTree
returns the input index for both halves on every input. -/
theorem claim_C3_merge_recurrence (b : Builder) (i1 i2 : Int)
    (hwf : WFNodes b.nodes) (hv2 : ValidIdx b i2) :
    (∀ (b' : Builder) (j : Int) (line : Line), splitTree b' j line = (j, j))
      ∧ (∀ sid pis, nodeAt b.nodes i1 = some (.leaf sid pis true) →
          mergeTreePair b i1 i2 = (i1, b))
      ∧ (∀ sid pis, nodeAt b.nodes i1 = some (.leaf sid pis false) →
          mergeTreePair b i1 i2 = (i2, b))
      ∧ (∀ nx ny d fr bk, nodeAt b.nodes i1 = some (.split nx ny d fr bk) →
          mergeTreePair b i1 i2 =
            addSplitNode
              (mergeTreePair
                (mergeTreePair b fr (splitTree b i2 ⟨⟨nx, ny⟩, d⟩).1).2 bk
                (splitTree b i2 ⟨⟨nx, ny⟩, d⟩).2).2 nx ny d
              (mergeTreePair b fr (splitTree b i2 ⟨⟨nx, ny⟩, d⟩).1).1
              (mergeTreePair
                (mergeTreePair b fr (splitTree b i2 ⟨⟨nx, ny⟩, d⟩).1).2 bk
                (splitTree b i2 ⟨⟨nx, ny⟩, d⟩).2).1) := by
  refine ⟨splitTree_id, ?_, ?_, ?_⟩
  · intro sid pis hat
    show mergePairF (i1.toNat + 1) b i1 i2 = _
    rw [mergePairF_leaf i1.toNat b i2 hat]
    rfl
  · intro sid pis hat
    show mergePairF (i1.toNat + 1) b i1 i2 = _
    rw [mergePairF_leaf i1.toNat b i2 hat]
    rfl
  · intro nx ny d fr bk hat
    rw [splitTree_id]
    exact mergeTreePair_split i2 hwf hv2 hat

theorem claim_C3_witness :
    splitTree ⟨[]⟩ 5 ⟨⟨1, 0⟩, 0⟩ = (5, 5)
      ∧ mergeTreePair ⟨[.leaf 0 [] true, .leaf 0 [] false, .split 1 0 0 1 0]⟩ 0 1
          = (0, ⟨[.leaf 0 [] true, .leaf 0 [] false, .split 1 0 0 1 0]⟩) := by
  have h := claim_C3_merge_recurrence
    ⟨[.leaf 0 [] true, .leaf 0 [] false, .split 1 0 0 1 0]⟩ 0 1
    (by decide) ⟨by decide, by decide⟩
  exact ⟨h.1 ⟨[]⟩ 5 ⟨⟨1, 0⟩, 0⟩, h.2.1 0 [] rfl⟩

/-- Modelled from the spec: the left fold merge order the spec
prescribes for combining the per-polygon trees,
merge(merge(merge(T1, T2), T3), ..., Tk), threaded through the same
pairwise merge as the source. Only used to compare against mergeTrees,
which the source implements differently. -/
def leftFoldMergeSpec (b : Builder) : List Int → Int × Builder
  | [] => addLeafNode b 0 [] false
  | t :: rest => rest.foldl (fun acc u => mergeTreePair acc.2 acc.1 u) (t, b)

/-- A builder state holding three little chains rooted at 2, 5 and 8,
used to separate the two fold orders. -/
def demoBuilder : Builder :=
  ⟨[.leaf 0 [] false, .leaf 0 [] true, .split 1 0 0 0 1,
    .leaf 0 [] false, .leaf 0 [] true, .split 0 1 0 3 4,
    .leaf 0 [] false, .leaf 0 [] true, .split 1 1 0 6 7]⟩

/-- C7 counterexample: on three trees the source merge produces a
different node array than the left fold the claim prescribes (11 nodes
against 12), so the combination is not the left fold
merge(merge(T1, T2), T3). -/
theorem claim_C7_counterexample :
    (mergeTrees demoBuilder [2, 5, 8]).2.nodes.length
      ≠ (leftFoldMergeSpec demoBuilder [2, 5, 8]).2.nodes.length := by
  decide

/-- C7 (amended): mergeTrees combines k trees as a right fold,
merge(T1, merge(T2, ..., merge(Tk-1, Tk))): the empty list yields a
fresh empty leaf, a singleton is returned unchanged, and a longer list
first merges the tail (threading the builder state through it), then
pair-merges the head tree with that result. The order is a fixed
function of the input, hence reproducible. -/
theorem claim_C7_right_fold (b : Builder) (t u : Int) (rest : List Int) :
    mergeTrees b [] = addLeafNode b 0 [] false
      ∧ mergeTrees b [t] = (t, b)
      ∧ mergeTrees b (t :: u :: rest)
          = mergeTreePair (mergeTrees b (u :: rest)).2 t
              (mergeTrees b (u :: rest)).1 :=
  ⟨rfl, rfl, rfl⟩

/-! ## The point query on arbitrary arrays (claim C1)

On arrays the builder never produces, the walk of the Go point query can
revisit an index, in which case the source recurses forever. The fueled
model returns false there. This section shows the fuel the wrapper uses
is a fixed point: a walk that does not halt within nodes.length + 1
steps repeats an index (pigeonhole) and hence never halts, so the
wrapper satisfies the recursion equations of the source on every input
on which the source terminates, and both sides of the split equation are
false on the rest. -/

/-- One transition of the query walk on Option Int, none = halted. -/
def tstep (nodes : List BSPNode) (p : Point) : Option Int → Option Int
  | none => none
  | some i =>
      match pointStep nodes p i with
      | .inl _ => none
      | .inr j => some j

/-- Does the walk halt within the given number of steps? -/
def haltsIn (nodes : List BSPNode) (p : Point) : ℕ → Int → Bool
  | 0, _ => false
  | fuel + 1, i =>
      match pointStep nodes p i with
      | .inl _ => true
      | .inr j => haltsIn nodes p fuel j

lemma iterate_tstep_none (nodes : List BSPNode) (p : Point) (k : ℕ) :
    (tstep nodes p)^[k] none = none :=
  Function.iterate_fixed rfl k

lemma pointInF_halts (nodes : List BSPNode) (p : Point) :
    ∀ (fuel : ℕ) (i : Int), haltsIn nodes p fuel i = true →
      ∀ fuel', fuel ≤ fuel' →
        pointInF fuel' nodes i p = pointInF fuel nodes i p := by
  intro fuel
  induction fuel with
  | zero => intro i h; simp [haltsIn] at h
  | succ fuel ih =>
      intro i h fuel' hf
      match fuel', hf with
      | fuel' + 1, hf =>
        rw [pointInF, pointInF]
        cases hn : pointStep nodes p i with
        | inl b => rfl
        | inr j =>
            rw [haltsIn, hn] at h
            exact ih j h fuel' (by omega)

lemma pointInF_not_halts (nodes : List BSPNode) (p : Point) :
    ∀ (fuel : ℕ) (i : Int), haltsIn nodes p fuel i = false →
      pointInF fuel nodes i p = false := by
  intro fuel
  induction fuel with
  | zero => intro i _; rfl
  | succ fuel ih =>
      intro i h
      rw [haltsIn] at h
      rw [pointInF]
      cases hn : pointStep nodes p i with
      | inl b =>
          rw [hn] at h
          simp at h
      | inr j =>
          rw [hn] at h
          exact ih j h

lemma tstep_some (nodes : List BSPNode) (p : Point) (i : Int) :
    tstep nodes p (some i)
      = match pointStep nodes p i with
        | .inl _ => none
        | .inr j => some j := rfl

lemma haltsIn_iff_traj (nodes : List BSPNode) (p : Point) :
    ∀ (fuel : ℕ) (i : Int), haltsIn nodes p fuel i = false ↔
      (tstep nodes p)^[fuel] (some i) ≠ none := by
  intro fuel
  induction fuel with
  | zero =>
      intro i
      simp [haltsIn]
  | succ fuel ih =>
      intro i
      rw [haltsIn, Function.iterate_succ_apply, tstep_some]
      cases hn : pointStep nodes p i with
      | inl b =>
          show (true = false) ↔ (tstep nodes p)^[fuel] none ≠ none
          rw [iterate_tstep_none]
          simp
      | inr j =>
          show haltsIn nodes p fuel j = false
            ↔ (tstep nodes p)^[fuel] (some j) ≠ none
          exact ih j

lemma traj_absorb (nodes : List BSPNode) (p : Point) (x : Option Int)
    {k k' : ℕ} (hk : k ≤ k') (h : (tstep nodes p)^[k] x = none) :
    (tstep nodes p)^[k'] x = none := by
  have hsplit : k' = (k' - k) + k := by omega
  rw [hsplit, Function.iterate_add_apply, h, iterate_tstep_none]

lemma traj_period (nodes : List BSPNode) (p : Point) (x : Option Int)
    {a b : ℕ} (hab : a ≤ b)
    (heq : (tstep nodes p)^[a] x = (tstep nodes p)^[b] x) :
    ∀ m, (tstep nodes p)^[a + m * (b - a)] x = (tstep nodes p)^[a] x := by
  intro m
  induction m with
  | zero => simp
  | succ m ih =>
      have h1 : a + (m + 1) * (b - a) = (b - a) + (a + m * (b - a)) := by
        ring
      rw [h1, Function.iterate_add_apply, ih, ← Function.iterate_add_apply]
      have h2 : b - a + a = b := by omega
      rw [h2, ← heq]

/-- A live transition only happens from an in-range index. -/
lemma tstep_some_bounds (nodes : List BSPNode) (p : Point) {j : Int}
    (h : tstep nodes p (some j) ≠ none) :
    0 ≤ j ∧ j.toNat < nodes.length := by
  rw [tstep_some] at h
  cases hn : pointStep nodes p j with
  | inl b => rw [hn] at h; simp at h
  | inr j' =>
      unfold pointStep at hn
      cases hat : nodeAt nodes j with
      | none => rw [hat] at hn; simp at hn
      | some nd =>
          exact ⟨(nodeAt_some hat).1, (nodeAt_some hat).2.1⟩

/-- Pigeonhole: a walk that survives nodes.length + 1 steps never
halts. -/
lemma traj_forever (nodes : List BSPNode) (p : Point) (i : Int)
    (h : (tstep nodes p)^[nodes.length + 1] (some i) ≠ none) :
    ∀ k, (tstep nodes p)^[k] (some i) ≠ none := by
  have hpre : ∀ k, k ≤ nodes.length + 1 →
      (tstep nodes p)^[k] (some i) ≠ none := by
    intro k hk hnone
    exact h (traj_absorb nodes p _ hk hnone)
  have hval : ∀ k, k ≤ nodes.length →
      0 ≤ ((tstep nodes p)^[k] (some i)).getD 0
        ∧ (((tstep nodes p)^[k] (some i)).getD 0).toNat < nodes.length
        ∧ (tstep nodes p)^[k] (some i)
            = some (((tstep nodes p)^[k] (some i)).getD 0) := by
    intro k hk
    obtain ⟨j, hj⟩ := Option.ne_none_iff_exists.mp (hpre k (by omega))
    have hlive : tstep nodes p (some j) ≠ none := by
      intro hnone
      apply hpre (k + 1) (by omega)
      rw [Function.iterate_succ_apply', ← hj, hnone]
    obtain ⟨h0, hlt⟩ := tstep_some_bounds nodes p hlive
    rw [← hj]
    exact ⟨h0, hlt, rfl⟩
  have hcard : ((Finset.range nodes.length).image (fun n : ℕ => (n : Int))).card
      < (Finset.range (nodes.length + 1)).card := by
    have h1 : ((Finset.range nodes.length).image (fun n : ℕ => (n : Int))).card
        ≤ nodes.length := by
      have h2 := Finset.card_image_le (s := Finset.range nodes.length)
        (f := fun n : ℕ => (n : Int))
      simpa using h2
    simp only [Finset.card_range]
    omega
  obtain ⟨a, ha, b, hb, hne, heq⟩ :=
    Finset.exists_ne_map_eq_of_card_lt_of_maps_to hcard
      (f := fun k => ((tstep nodes p)^[k] (some i)).getD 0)
      (by
        intro k hk
        have hk' : k ≤ nodes.length := by
          have := Finset.mem_range.mp hk
          omega
        obtain ⟨h0, hlt, -⟩ := hval k hk'
        refine Finset.mem_image.mpr
          ⟨(((tstep nodes p)^[k] (some i)).getD 0).toNat,
            Finset.mem_range.mpr hlt, ?_⟩
        exact Int.toNat_of_nonneg h0)
  have ha' : a ≤ nodes.length := by
    have := Finset.mem_range.mp ha
    omega
  have hb' : b ≤ nodes.length := by
    have := Finset.mem_range.mp hb
    omega
  have key : ∀ (a b : ℕ), a < b → b ≤ nodes.length →
      (tstep nodes p)^[a] (some i) = (tstep nodes p)^[b] (some i) →
      ∀ k, (tstep nodes p)^[k] (some i) ≠ none := by
    intro a b hab hble htr k hnone
    have hbig : k ≤ a + k * (b - a) := by
      have hk1 : k ≤ k * (b - a) := Nat.le_mul_of_pos_right k (by omega)
      omega
    have hper := traj_period nodes p (some i) (by omega : a ≤ b) htr k
    rw [traj_absorb nodes p _ hbig hnone] at hper
    exact hpre a (by omega) hper.symm
  have htra : (tstep nodes p)^[a] (some i)
      = (tstep nodes p)^[b] (some i) := by
    obtain ⟨-, -, hsa⟩ := hval a ha'
    obtain ⟨-, -, hsb⟩ := hval b hb'
    rw [hsa, hsb]
    exact congrArg some heq
  rcases lt_or_gt_of_ne hne with hab | hab
  · exact key a b hab hb' htra
  · exact key b a hab ha' htra.symm

/-- Above nodes.length + 1 the fuel does not matter, on any array. -/
lemma pointInF_stable (nodes : List BSPNode) (p : Point) (i : Int) :
    ∀ fuel, nodes.length + 1 ≤ fuel →
      pointInF fuel nodes i p = pointInF (nodes.length + 1) nodes i p := by
  intro fuel hf
  cases hh : haltsIn nodes p (nodes.length + 1) i with
  | true => exact pointInF_halts nodes p _ i hh fuel hf
  | false =>
      have h1 := (haltsIn_iff_traj nodes p _ i).mp hh
      have h2 := traj_forever nodes p i h1
      have h3 : haltsIn nodes p fuel i = false :=
        (haltsIn_iff_traj nodes p fuel i).mpr (h2 fuel)
      rw [pointInF_not_halts nodes p _ i hh, pointInF_not_halts nodes p _ i h3]

/-- C1: on every node array, every node index, and every point, the
point query returns false for an index that is negative or out of range,
returns the solid flag at a leaf, and at a split recurses into the front
child exactly when the signed distance n.p - d is strictly positive
(no epsilon), otherwise, including the on-plane case, into the back
child. -/
theorem claim_C1_point_query_cases (nodes : List BSPNode) (i : Int)
    (p : Point) :
    ((i < 0 ∨ (nodes.length : Int) ≤ i) → PointInBSP nodes i p = false)
      ∧ (∀ sid pis s, nodeAt nodes i = some (.leaf sid pis s) →
          PointInBSP nodes i p = s)
      ∧ (∀ nx ny d f bk, nodeAt nodes i = some (.split nx ny d f bk) →
          PointInBSP nodes i p =
            if Line.PointSide ⟨⟨nx, ny⟩, d⟩ p > 0 then PointInBSP nodes f p
            else PointInBSP nodes bk p) := by
  refine ⟨?_, ?_, ?_⟩
  · intro hout
    have hat : nodeAt nodes i = none := by
      unfold nodeAt
      rcases hout with hneg | hbig
      · simp [not_le.mpr hneg]
      · by_cases h0 : 0 ≤ i
        · simp only [if_pos h0]
          exact List.getElem?_eq_none (by omega)
        · simp [h0]
    have hstep : pointStep nodes p i = .inl false := by
      unfold pointStep
      rw [hat]
    unfold PointInBSP
    rw [pointInF, hstep]
  · intro sid pis s hat
    have hstep : pointStep nodes p i = .inl s := by
      unfold pointStep
      rw [hat]
    unfold PointInBSP
    rw [pointInF, hstep]
  · intro nx ny d f bk hat
    have hstep : pointStep nodes p i
        = if Line.PointSide ⟨⟨nx, ny⟩, d⟩ p > 0 then .inr f else .inr bk := by
      unfold pointStep
      rw [hat]
    have hchild : ∀ j : Int, pointStep nodes p i = .inr j →
        pointInF nodes.length nodes j p = PointInBSP nodes j p := by
      intro j hj
      cases hh : haltsIn nodes p nodes.length j with
      | true =>
          exact (pointInF_halts nodes p _ j hh (nodes.length + 1)
            (by omega)).symm
      | false =>
          have h1 := (haltsIn_iff_traj nodes p _ j).mp hh
          have htsi : tstep nodes p (some i) = some j := by
            rw [tstep_some, hj]
          have h2 : (tstep nodes p)^[nodes.length + 1] (some i) ≠ none := by
            rw [Function.iterate_succ_apply, htsi]
            exact h1
          have h3 := traj_forever nodes p i h2
          have h4 : (tstep nodes p)^[nodes.length + 1] (some j) ≠ none := by
            have := h3 (nodes.length + 2)
            rwa [show nodes.length + 2 = nodes.length + 1 + 1 from rfl,
              Function.iterate_succ_apply, htsi] at this
          have h5 : haltsIn nodes p (nodes.length + 1) j = false :=
        (haltsIn_iff_traj nodes p _ j).mpr h4
          rw [pointInF_not_halts nodes p _ j hh]
          unfold PointInBSP
          rw [pointInF_not_halts nodes p _ j h5]
    by_cases hs : Line.PointSide ⟨⟨nx, ny⟩, d⟩ p > 0
    · rw [if_pos hs]
      have hstep' : pointStep nodes p i = .inr f := by
        rw [hstep, if_pos hs]
      unfold PointInBSP
      rw [pointInF, hstep']
      exact hchild f hstep'
    · rw [if_neg hs]
      have hstep' : pointStep nodes p i = .inr bk := by
        rw [hstep, if_neg hs]
      unfold PointInBSP
      rw [pointInF, hstep']
      exact hchild bk hstep'

/-- A three-node array for the C1 witness: two leaves under one split. -/
def cNodes : List BSPNode :=
  [.leaf 0 [] false, .leaf 0 [] true, .split 1 0 0 1 0]

theorem claim_C1_witness :
    PointInBSP cNodes 5 ⟨2, 0⟩ = false
      ∧ PointInBSP cNodes 1 ⟨2, 0⟩ = true
      ∧ PointInBSP cNodes 2 ⟨2, 0⟩
          = (if Line.PointSide ⟨⟨1, 0⟩, 0⟩ ⟨2, 0⟩ > 0
              then PointInBSP cNodes 1 ⟨2, 0⟩ else PointInBSP cNodes 0 ⟨2, 0⟩) := by
  refine ⟨(claim_C1_point_query_cases cNodes 5 ⟨2, 0⟩).1 (by right; decide), ?_, ?_⟩
  · exact (claim_C1_point_query_cases cNodes 1 ⟨2, 0⟩).2.1 0 [] true rfl
  · exact (claim_C1_point_query_cases cNodes 2 ⟨2, 0⟩).2.2 1 0 0 1 0 rfl

/-! ## The crossing parameter of the trace (claim C8) -/

/-- Reaching the final branch of the split case of the trace is exactly
crossingCase. -/
lemma crossing_reached (d0 d1 : ℚ) :
    (¬(d0 > epsilon ∧ d1 > epsilon) ∧ ¬(d0 ≤ epsilon ∧ d1 ≤ epsilon))
      ↔ crossingCase d0 d1 :=
  Iff.rfl

/-- C8 counterexample: a split with plane normal (0, 1), distance 0 and
the sub-segment endpoints (0, 1/20000) and (0, 1) puts the trace in the
crossing case with d0 = 1/20000 inside the (0, epsilon] band, and the
computed parameter t = -d0 / (d1 - d0) is negative, not in (0, 1). -/
theorem claim_C8_counterexample :
    crossingCase ((0 : ℚ) * 0 + 1 * (1 / 20000) - 0) ((0 : ℚ) * 0 + 1 * 1 - 0)
      ∧ ¬(0 < crossParam ((0 : ℚ) * 0 + 1 * (1 / 20000) - 0)
            ((0 : ℚ) * 0 + 1 * 1 - 0)
          ∧ crossParam ((0 : ℚ) * 0 + 1 * (1 / 20000) - 0)
              ((0 : ℚ) * 0 + 1 * 1 - 0) < 1) := by
  constructor
  · constructor
    · intro hcontra
      have := hcontra.1
      norm_num [epsilon] at this
    · intro hcontra
      have := hcontra.2
      norm_num [epsilon] at this
  · intro hcontra
    have := hcontra.1
    norm_num [crossParam] at this

/-- C8 (amended): in the crossing case the computed parameter
t = -d0 / (d1 - d0) lies strictly in (0, 1) provided the endpoint on the
at-most-epsilon side of the plane is strictly negative (the claim as
stated fails when that endpoint distance lies in the band (0, epsilon],
where t falls outside (0, 1)); then for t0 < t1 the mapped global
parameter t0 + t * (t1 - t0) lies strictly between t0 and t1. -/
theorem claim_C8_cross_param (d0 d1 t0 t1 : ℚ) (hcross : crossingCase d0 d1)
    (hneg : d0 < 0 ∨ d1 < 0) (ht : t0 < t1) :
    0 < crossParam d0 d1 ∧ crossParam d0 d1 < 1
      ∧ t0 < t0 + crossParam d0 d1 * (t1 - t0)
      ∧ t0 + crossParam d0 d1 * (t1 - t0) < t1 := by
  obtain ⟨hc1, hc2⟩ := hcross
  have heps : (0 : ℚ) < epsilon := by norm_num [epsilon]
  have hkey : 0 < crossParam d0 d1 ∧ crossParam d0 d1 < 1 := by
    by_cases h0 : d0 ≤ epsilon
    · have hd1 : ¬(d1 ≤ epsilon) := fun h => hc2 ⟨h0, h⟩
      push_neg at hd1
      have hd0 : d0 < 0 := by
        rcases hneg with h | h
        · exact h
        · linarith
      have hden : 0 < d1 - d0 := by linarith
      constructor
      · exact div_pos (by linarith) hden
      · rw [crossParam, div_lt_one hden]
        linarith
    · push_neg at h0
      have hd1 : d1 ≤ epsilon := by
        by_contra hd1
        exact hc1 ⟨by linarith, by linarith⟩
      have hd1n : d1 < 0 := by
        rcases hneg with h | h
        · linarith
        · exact h
      have hden : d1 - d0 < 0 := by linarith
      constructor
      · rw [crossParam]
        apply div_pos_of_neg_of_neg (by linarith) hden
      · rw [crossParam, div_lt_one_iff]
        right; right
        exact ⟨hden, by linarith⟩
  obtain ⟨htpos, htlt⟩ := hkey
  refine ⟨htpos, htlt, ?_, ?_⟩
  · nlinarith [mul_pos htpos (sub_pos.mpr ht)]
  · nlinarith [mul_pos (sub_pos.mpr htlt) (sub_pos.mpr ht)]

theorem claim_C8_witness :
    crossingCase (-(1 : ℚ) / 2) 1
      ∧ (0 < crossParam (-(1 : ℚ) / 2) 1 ∧ crossParam (-(1 : ℚ) / 2) 1 < 1
          ∧ (0 : ℚ) < 0 + crossParam (-(1 : ℚ) / 2) 1 * (1 - 0)
          ∧ 0 + crossParam (-(1 : ℚ) / 2) 1 * (1 - 0) < 1) := by
  have hcross : crossingCase (-(1 : ℚ) / 2) 1 := by
    constructor
    · intro hcontra
      have := hcontra.1
      norm_num [epsilon] at this
    · intro hcontra
      have := hcontra.2
      norm_num [epsilon] at this
  exact ⟨hcross, claim_C8_cross_param (-(1 : ℚ) / 2) 1 0 1 hcross
    (Or.inl (by norm_num)) (by norm_num)⟩

/-! ## Non-solid polygons contribute nothing (claim C10) -/

/-- A fold whose step ignores elements failing P equals the fold over
the filtered list. -/
lemma foldl_skip_filter {α β : Type} (f : β → α → β) (P : α → Bool)
    (hskip : ∀ acc x, P x = false → f acc x = acc) :
    ∀ (l : List α) (acc : β), l.foldl f acc = (l.filter P).foldl f acc := by
  intro l
  induction l with
  | nil => intro acc; rfl
  | cons x rest ih =>
      intro acc
      by_cases hx : P x
      · rw [List.filter_cons_of_pos hx, List.foldl_cons, List.foldl_cons]
        exact ih _
      · rw [List.filter_cons_of_neg (by simp [hx]), List.foldl_cons,
          hskip acc x (by simpa using hx)]
        exact ih acc

/-- Step 1 of Build expressed with an explicit accumulator. -/
lemma collect_acc (part : Polygon → Option (List Polygon)) :
    ∀ (l : List Polygon) (acc : List Polygon),
      l.foldl (collectStep part) acc = acc ++ l.foldl (collectStep part) [] := by
  intro l
  induction l with
  | nil => intro acc; simp
  | cons p rest ih =>
      intro acc
      rw [List.foldl_cons, List.foldl_cons, ih (collectStep part acc p),
        ih (collectStep part [] p)]
      have hstep : ∀ a, collectStep part a p = a ++ (part p).getD [] := by
        intro a
        cases hp : part p with
        | none => simp [collectStep, hp]
        | some pieces => simp [collectStep, hp]
      rw [hstep acc, hstep []]
      simp

/-- Membership in the collected convex pieces comes from some input
polygon whose partition succeeded. -/
lemma mem_collect {part : Polygon → Option (List Polygon)} :
    ∀ {l : List Polygon} {q : Polygon}, q ∈ l.foldl (collectStep part) [] →
      ∃ p ∈ l, ∃ pieces, part p = some pieces ∧ q ∈ pieces := by
  intro l
  induction l with
  | nil => intro q hq; simp at hq
  | cons p rest ih =>
      intro q hq
      rw [List.foldl_cons, collect_acc] at hq
      rcases List.mem_append.mp hq with hq | hq
      · refine ⟨p, by simp, ?_⟩
        cases hp : part p with
        | none => simp [collectStep, hp] at hq
        | some pieces =>
            simp only [collectStep, hp] at hq
            exact ⟨pieces, rfl, by simpa using hq⟩
      · obtain ⟨p', hp', hpieces⟩ := ih hq
        exact ⟨p', by simp [hp'], hpieces⟩

/-- The chain-building filter of step 2 of Build. -/
def solidBig (poly : Polygon) : Bool :=
  decide (poly.isSolid ∧ poly.vertices.length ≥ 3)

/-- Filtering the collected pieces by the chain condition gives the same
list whether or not the non-solid input polygons are dropped first,
provided pieces inherit the solid flag of their input polygon. -/
lemma collect_filter_solid (part : Polygon → Option (List Polygon))
    (hinherit : ∀ poly pieces, part poly = some pieces →
      ∀ q ∈ pieces, q.isSolid = poly.isSolid) :
    ∀ polys : List Polygon,
      (polys.foldl (collectStep part) []).filter solidBig
        = ((polys.filter (fun q => q.isSolid)).foldl
            (collectStep part) []).filter solidBig := by
  intro polys
  induction polys with
  | nil => rfl
  | cons p rest ih =>
      have hL : (p :: rest).foldl (collectStep part) []
          = collectStep part [] p ++ rest.foldl (collectStep part) [] := by
        rw [List.foldl_cons]
        exact collect_acc part rest (collectStep part [] p)
      by_cases hp : p.isSolid
      · have hR : (p :: rest.filter (fun q => q.isSolid)).foldl
              (collectStep part) []
            = collectStep part [] p
              ++ (rest.filter (fun q => q.isSolid)).foldl (collectStep part) [] := by
          rw [List.foldl_cons]
          exact collect_acc part _ _
        rw [List.filter_cons_of_pos (by simpa using hp), hL, hR,
          List.filter_append, List.filter_append, ih]
      · have hnil : (collectStep part [] p).filter solidBig = [] := by
          cases hpp : part p with
          | none => simp [collectStep, hpp]
          | some pieces =>
              simp only [collectStep, hpp, List.nil_append]
              rw [List.filter_eq_nil_iff]
              intro q hq
              have := hinherit p pieces hpp q hq
              simp [solidBig, this, hp]
        rw [List.filter_cons_of_neg (by simpa using hp), hL,
          List.filter_append, hnil, List.nil_append, ih]

/-- Build gives the same tree whether or not the non-solid input
polygons are dropped first. -/
lemma build_filter_solid (sqrt : ℚ → ℚ) (part : Polygon → Option (List Polygon))
    (polys : List Polygon)
    (hinherit : ∀ poly pieces, part poly = some pieces →
      ∀ q ∈ pieces, q.isSolid = poly.isSolid) :
    Build sqrt part polys = Build sqrt part (polys.filter (fun q => q.isSolid)) := by
  have hskip : ∀ (acc : List Int × Builder) x, solidBig x = false →
      chainStep sqrt acc x = acc := by
    intro acc x hx
    rw [chainStep, if_neg]
    simpa [solidBig] using hx
  have h1 : (polys.foldl (collectStep part) []).foldl (chainStep sqrt)
        ([], ⟨[]⟩)
      = ((polys.filter (fun q => q.isSolid)).foldl (collectStep part)
          []).foldl (chainStep sqrt) ([], ⟨[]⟩) := by
    rw [foldl_skip_filter (chainStep sqrt) solidBig hskip,
      foldl_skip_filter (chainStep sqrt) solidBig hskip
        (((polys.filter (fun q => q.isSolid)).foldl (collectStep part) [])),
      collect_filter_solid part hinherit polys]
  simp only [Build]
  rw [h1]

lemma chainStep_skip (sqrt : ℚ → ℚ) :
    ∀ (acc : List Int × Builder) x, solidBig x = false →
      chainStep sqrt acc x = acc := by
  intro acc x hx
  rw [chainStep, if_neg]
  simpa [solidBig] using hx

/-- With no solid polygon in the input, Build returns the single empty
leaf. -/
lemma build_no_solid (sqrt : ℚ → ℚ) (part : Polygon → Option (List Polygon))
    (polys : List Polygon)
    (hinherit : ∀ poly pieces, part poly = some pieces →
      ∀ q ∈ pieces, q.isSolid = poly.isSolid)
    (hnon : ∀ p ∈ polys, p.isSolid = false) :
    Build sqrt part polys = ⟨[.leaf 0 [] false], 0⟩ := by
  have hconv : ∀ q ∈ polys.foldl (collectStep part) [], solidBig q = false := by
    intro q hq
    obtain ⟨p, hp, pieces, hpp, hqp⟩ := mem_collect hq
    have := hinherit p pieces hpp q hqp
    simp [solidBig, this, hnon p hp]
  have hfold : (polys.foldl (collectStep part) []).foldl (chainStep sqrt)
      ([], ⟨[]⟩) = ([], ⟨[]⟩) := by
    rw [foldl_skip_filter (chainStep sqrt) solidBig (chainStep_skip sqrt)]
    rw [List.filter_eq_nil_iff.mpr (by intro a ha; simp [hconv a ha])]
    rfl
  simp only [Build]
  rw [hfold]
  rfl

/-- C10: non-solid polygons contribute nothing: Build answers every
point query as the Build of only the solid input polygons (here their
node arrays even coincide), and when no input polygon is solid
(including the empty list) the tree is the single empty leaf and the
point query is false everywhere. Pieces are assumed to inherit the
solid flag of their input polygon, as PartitionPolygonConvex guarantees
(cgal.go line 68). -/
theorem claim_C10_solid_only (sqrt : ℚ → ℚ)
    (part : Polygon → Option (List Polygon)) (polys : List Polygon)
    (hinherit : ∀ poly pieces, part poly = some pieces →
      ∀ q ∈ pieces, q.isSolid = poly.isSolid) :
    (∀ pt, PointInBSP (Build sqrt part polys).nodes
        (Build sqrt part polys).rootIndex pt
      = PointInBSP (Build sqrt part (polys.filter (fun q => q.isSolid))).nodes
          (Build sqrt part (polys.filter (fun q => q.isSolid))).rootIndex pt)
      ∧ ((∀ p ∈ polys, p.isSolid = false) →
          Build sqrt part polys = ⟨[.leaf 0 [] false], 0⟩
            ∧ ∀ pt, PointInBSP (Build sqrt part polys).nodes
                (Build sqrt part polys).rootIndex pt = false) := by
  constructor
  · intro pt
    rw [build_filter_solid sqrt part polys hinherit]
  · intro hnon
    have hb := build_no_solid sqrt part polys hinherit hnon
    refine ⟨hb, fun pt => ?_⟩
    rw [hb]
    rfl

theorem claim_C10_witness :
    Build qSqrt partOk [⟨[⟨0, 0⟩, ⟨1, 0⟩, ⟨0, 1⟩], false⟩]
        = ⟨[.leaf 0 [] false], 0⟩
      ∧ PointInBSP (Build qSqrt partOk [⟨[⟨0, 0⟩, ⟨1, 0⟩, ⟨0, 1⟩], false⟩]).nodes
          (Build qSqrt partOk [⟨[⟨0, 0⟩, ⟨1, 0⟩, ⟨0, 1⟩], false⟩]).rootIndex
          ⟨0, 0⟩ = false := by
  have hinherit : ∀ poly pieces, partOk poly = some pieces →
      ∀ q ∈ pieces, q.isSolid = poly.isSolid := by
    intro poly pieces hp q hq
    obtain rfl : [poly] = pieces := Option.some_inj.mp hp
    rw [List.mem_singleton.mp hq]
  have h := (claim_C10_solid_only qSqrt partOk
    [⟨[⟨0, 0⟩, ⟨1, 0⟩, ⟨0, 1⟩], false⟩] hinherit).2
    (by intro p hp; rw [List.mem_singleton.mp hp])
  exact ⟨h.1, h.2 ⟨0, 0⟩⟩

/-! ## The direction of the stored edge normal (claim C6)

The spec calls (e.y, -e.x) the inward normal of a CCW polygon edge and
asks that it point at the centroid. For a CCW polygon that vector points
away from the interior: the interior lies on the back side, which is
exactly why the builder chains the interior through the back children.
This section proves the corrected direction. -/

/-- 2D cross product of two vectors. -/
def crossV (a b : Vector2) : ℚ :=
  a.x * b.y - a.y * b.x

/-- Convexity of a CCW vertex loop: every vertex lies on or to the left
of every directed edge line. -/
def convexCCW (p : Polygon) : Prop :=
  ∀ i j : Fin p.vertices.length,
    0 ≤ crossV (edgeVec p i)
      ⟨(vtx p j).x - (vtx p i).x, (vtx p j).y - (vtx p i).y⟩

instance : ∀ p, Decidable (convexCCW p) := fun p => by
  unfold convexCCW
  infer_instance

/-- Modelled from the spec: the vertex centroid the spec checks the
normal against. -/
def centroid (p : Polygon) : Point :=
  ⟨(∑ j ∈ Finset.range p.vertices.length, (vtx p j).x) / p.vertices.length,
   (∑ j ∈ Finset.range p.vertices.length, (vtx p j).y) / p.vertices.length⟩

lemma vtx_wrap (p : Polygon) :
    vtx p p.vertices.length = vtx p 0 := by
  unfold vtx
  rw [Nat.mod_self, Nat.zero_mod]

/-- A cyclic shift leaves a sum over one period unchanged. -/
lemma sum_shift (g : ℕ → ℚ) (n : ℕ) (hg : g n = g 0) :
    ∑ j ∈ Finset.range n, g (j + 1) = ∑ j ∈ Finset.range n, g j := by
  cases n with
  | zero => rfl
  | succ m =>
      rw [Finset.sum_range_succ, Finset.sum_range_succ']
      rw [hg]

/-- If all vertices lie on one line through a with direction e, the
shoelace area vanishes. -/
lemma signedArea_eq_zero_of_collinear (p : Polygon) (a : Point) (e : Vector2)
    (he : e.x ≠ 0 ∨ e.y ≠ 0)
    (hcol : ∀ j, j < p.vertices.length →
      crossV e ⟨(vtx p j).x - a.x, (vtx p j).y - a.y⟩ = 0) :
    signedArea p = 0 := by
  by_cases hn3 : p.vertices.length < 3
  · rw [signedArea, if_pos hn3]
  · have hS : 0 < e.x * e.x + e.y * e.y := by
      rcases he with hx | hy
      · nlinarith [mul_self_nonneg e.y, mul_self_pos.mpr hx]
      · nlinarith [mul_self_nonneg e.x, mul_self_pos.mpr hy]
    set n := p.vertices.length with hn
    set lam : ℕ → ℚ := fun k =>
      (((vtx p k).x - a.x) * e.x + ((vtx p k).y - a.y) * e.y)
        / (e.x * e.x + e.y * e.y) with hlam
    have hrep : ∀ k, k ≤ n →
        (vtx p k).x = a.x + lam k * e.x ∧ (vtx p k).y = a.y + lam k * e.y := by
      have hbase : ∀ k, k < n →
          (vtx p k).x = a.x + lam k * e.x ∧ (vtx p k).y = a.y + lam k * e.y := by
        intro k hk
        have hc : e.x * ((vtx p k).y - a.y) - e.y * ((vtx p k).x - a.x) = 0 := by
          have := hcol k hk
          rw [crossV] at this
          exact this
        have hSne : e.x * e.x + e.y * e.y ≠ 0 := ne_of_gt hS
        have hsx : ((vtx p k).x - a.x) * (e.x * e.x + e.y * e.y)
            = (((vtx p k).x - a.x) * e.x + ((vtx p k).y - a.y) * e.y) * e.x := by
          linear_combination (-e.y) * hc
        have hsy : ((vtx p k).y - a.y) * (e.x * e.x + e.y * e.y)
            = (((vtx p k).x - a.x) * e.x + ((vtx p k).y - a.y) * e.y) * e.y := by
          linear_combination e.x * hc
        simp only [hlam]
        constructor
        · have hdx : (vtx p k).x - a.x
              = (((vtx p k).x - a.x) * e.x + ((vtx p k).y - a.y) * e.y)
                  / (e.x * e.x + e.y * e.y) * e.x := by
            rw [div_mul_eq_mul_div, eq_div_iff hSne]
            linear_combination hsx
          linarith [hdx]
        · have hdy : (vtx p k).y - a.y
              = (((vtx p k).x - a.x) * e.x + ((vtx p k).y - a.y) * e.y)
                  / (e.x * e.x + e.y * e.y) * e.y := by
            rw [div_mul_eq_mul_div, eq_div_iff hSne]
            linear_combination hsy
          linarith [hdy]
      intro k hk
      rcases Nat.lt_or_ge k n with hlt | hge
      · exact hbase k hlt
      · have hkn : k = n := by omega
        subst hkn
        have hw : vtx p n = vtx p 0 := vtx_wrap p
        have hl : lam n = lam 0 := by
          simp only [hlam, hw]
        rw [hw, hl]
        exact hbase 0 (by omega)
    have hlamn : lam n = lam 0 := by
      simp only [hlam, vtx_wrap p]
    have hterm : ∀ j ∈ Finset.range n,
        (vtx p j).x * (vtx p (j + 1)).y - (vtx p (j + 1)).x * (vtx p j).y
          = (lam (j + 1) - lam j) * (a.x * e.y - e.x * a.y) := by
      intro j hj
      have hj' := Finset.mem_range.mp hj
      obtain ⟨hx1, hy1⟩ := hrep j (by omega)
      obtain ⟨hx2, hy2⟩ := hrep (j + 1) (by omega)
      rw [hx1, hy1, hx2, hy2]
      ring
    rw [signedArea, if_neg hn3]
    rw [Finset.sum_congr rfl hterm, ← Finset.sum_mul, Finset.sum_sub_distrib,
      sum_shift lam n hlamn, sub_self, zero_mul, zero_div]

/-- C6 (amended): for a CCW convex polygon with at least 3 vertices and
a nondegenerate edge i, the normal the builder stores for edge i is
Normalize((e.y, -e.x)) with e the edge vector, and this normal points
AWAY from the interior: its dot product with centroid - v[i] is
strictly negative (the claim asserts it is positive). The abstract
square root is only required to be positive on the squared length it
receives. -/
theorem claim_C6_normal_direction (sqrt : ℚ → ℚ) (p : Polygon) (i : ℕ)
    (hn3 : 3 ≤ p.vertices.length) (hccw : isCCW p) (hconv : convexCCW p)
    (hi : i < p.vertices.length)
    (he : (edgeVec p i).x ≠ 0 ∨ (edgeVec p i).y ≠ 0)
    (hsq : 0 < sqrt ((edgeVec p i).y * (edgeVec p i).y
        + -(edgeVec p i).x * -(edgeVec p i).x)) :
    edgeNormal sqrt p i
        = Vector2.Normalize sqrt ⟨(edgeVec p i).y, -(edgeVec p i).x⟩
      ∧ (edgeNormal sqrt p i).x * ((centroid p).x - (vtx p i).x)
          + (edgeNormal sqrt p i).y * ((centroid p).y - (vtx p i).y) < 0 := by
  refine ⟨rfl, ?_⟩
  set n := p.vertices.length with hn
  have hn0 : (n : ℚ) ≠ 0 := Nat.cast_ne_zero.mpr (by omega)
  have hnpos : (0 : ℚ) < n := by
    have : (3 : ℚ) ≤ n := by exact_mod_cast hn3
    linarith
  set e := edgeVec p i with hedef
  -- the total turning of all vertices around edge i is strictly positive
  have hsumpos : 0 < ∑ j ∈ Finset.range n,
      crossV e ⟨(vtx p j).x - (vtx p i).x, (vtx p j).y - (vtx p i).y⟩ := by
    apply Finset.sum_pos'
    · intro j hj
      exact hconv ⟨i, hi⟩ ⟨j, Finset.mem_range.mp hj⟩
    · by_contra hno
      push_neg at hno
      have hzero : ∀ j, j < n →
          crossV e ⟨(vtx p j).x - (vtx p i).x, (vtx p j).y - (vtx p i).y⟩ = 0 := by
        intro j hj
        have h1 := hconv ⟨i, hi⟩ ⟨j, hj⟩
        have h2 := hno j (Finset.mem_range.mpr hj)
        linarith
      have harea := signedArea_eq_zero_of_collinear p (vtx p i) e he hzero
      rw [isCCW] at hccw
      rw [harea] at hccw
      exact absurd hccw (by norm_num)
  -- the cross product with the centroid offset is the average
  have hcent : crossV e ⟨(centroid p).x - (vtx p i).x,
        (centroid p).y - (vtx p i).y⟩
      = (∑ j ∈ Finset.range n,
          crossV e ⟨(vtx p j).x - (vtx p i).x, (vtx p j).y - (vtx p i).y⟩) / n := by
    have hexpand : ∑ j ∈ Finset.range n,
        crossV e ⟨(vtx p j).x - (vtx p i).x, (vtx p j).y - (vtx p i).y⟩
        = e.x * (∑ j ∈ Finset.range n, (vtx p j).y) - n * (e.x * (vtx p i).y)
          - (e.y * (∑ j ∈ Finset.range n, (vtx p j).x)
              - n * (e.y * (vtx p i).x)) := by
      simp only [crossV]
      rw [Finset.sum_sub_distrib, ← Finset.mul_sum, ← Finset.mul_sum,
        Finset.sum_sub_distrib, Finset.sum_sub_distrib]
      simp only [Finset.sum_const, Finset.card_range, nsmul_eq_mul]
      ring
    rw [crossV, eq_div_iff hn0, hexpand]
    simp only [centroid]
    field_simp
    ring
  have hcentpos : 0 < crossV e ⟨(centroid p).x - (vtx p i).x,
      (centroid p).y - (vtx p i).y⟩ := by
    rw [hcent]
    exact div_pos hsumpos hnpos
  -- the stored normal is the scaled (e.y, -e.x)
  have hL : sqrt ((edgeVec p i).y * (edgeVec p i).y
      + -(edgeVec p i).x * -(edgeVec p i).x) ≠ 0 := ne_of_gt hsq
  have hnorm : edgeNormal sqrt p i
      = ⟨e.y / sqrt (e.y * e.y + -e.x * -e.x),
         -e.x / sqrt (e.y * e.y + -e.x * -e.x)⟩ := by
    rw [edgeNormal, Vector2.Normalize]
    simp only [← hedef]
    rw [if_neg hL]
  rw [hnorm]
  rw [crossV] at hcentpos
  have hLpos : 0 < sqrt (e.y * e.y + -e.x * -e.x) := hsq
  set L := sqrt (e.y * e.y + -e.x * -e.x) with hLdef
  set wx := (centroid p).x - (vtx p i).x with hwx
  set wy := (centroid p).y - (vtx p i).y with hwy
  show e.y / L * wx + -e.x / L * wy < 0
  have hform : e.y / L * wx + -e.x / L * wy
      = -(e.x * wy - e.y * wx) / L := by
    field_simp
    ring
  rw [hform]
  apply div_neg_of_neg_of_pos _ hLpos
  linarith

/-- C6 counterexample: the unit square is CCW and convex with 4
vertices, yet for its first edge the stored normal (0, -1) has dot
product -1/2 with centroid - v[0]: the normal does not point toward the
interior. -/
theorem claim_C6_counterexample :
    isCCW usqPoly ∧ convexCCW usqPoly ∧ 3 ≤ usqPoly.vertices.length
      ∧ ¬(0 < (edgeNormal qSqrt usqPoly 0).x
              * ((centroid usqPoly).x - (vtx usqPoly 0).x)
            + (edgeNormal qSqrt usqPoly 0).y
              * ((centroid usqPoly).y - (vtx usqPoly 0).y)) := by
  refine ⟨?_, ?_, by norm_num [usqPoly], ?_⟩
  · norm_num [isCCW, signedArea, vtx, usqPoly, Finset.sum_range_succ]
  · unfold convexCCW
    intro i j
    fin_cases i <;> fin_cases j <;>
      norm_num [crossV, edgeVec, vtx, usqPoly]
  · norm_num [edgeNormal, Vector2.Normalize, edgeVec, vtx, usqPoly, centroid,
      qSqrt_one, Finset.sum_range_succ]

theorem claim_C6_witness :
    edgeNormal qSqrt triPoly 0
        = Vector2.Normalize qSqrt ⟨(edgeVec triPoly 0).y, -(edgeVec triPoly 0).x⟩
      ∧ (edgeNormal qSqrt triPoly 0).x
            * ((centroid triPoly).x - (vtx triPoly 0).x)
          + (edgeNormal qSqrt triPoly 0).y
            * ((centroid triPoly).y - (vtx triPoly 0).y) < 0 :=
  claim_C6_normal_direction qSqrt triPoly 0 (by norm_num [triPoly])
    (by norm_num [isCCW, signedArea, vtx, triPoly, Finset.sum_range_succ])
    (by
      unfold convexCCW
      intro i j
      fin_cases i <;> fin_cases j <;>
        norm_num [crossV, edgeVec, vtx, triPoly])
    (by norm_num [triPoly])
    (Or.inl (by norm_num [edgeVec, vtx, triPoly]))
    (by norm_num [edgeVec, vtx, triPoly, qSqrt_one])

/-! ## The parametric line trace on built trees (claim C4) -/

lemma lineTraceF_none (fuel : ℕ) {nodes : List BSPNode} {i : Int}
    (a c : Point) (t0 t1 : ℚ) (hat : nodeAt nodes i = none) :
    lineTraceF (fuel + 1) nodes i a c t0 t1 = (false, 0, 0) := by
  rw [lineTraceF, hat]

lemma lineTraceF_leaf (fuel : ℕ) {nodes : List BSPNode} {i : Int}
    (a c : Point) (t0 t1 : ℚ) {sid : Int} {pis : List Int} {s : Bool}
    (hat : nodeAt nodes i = some (.leaf sid pis s)) :
    lineTraceF (fuel + 1) nodes i a c t0 t1
      = if s then (true, (lerp a c t0).x, (lerp a c t0).y)
        else (false, 0, 0) := by
  rw [lineTraceF, hat]

lemma lineTraceF_split (fuel : ℕ) {nodes : List BSPNode} {i : Int}
    (a c : Point) (t0 t1 : ℚ) {nx ny d : ℚ} {f bk : Int}
    (hat : nodeAt nodes i = some (.split nx ny d f bk)) :
    lineTraceF (fuel + 1) nodes i a c t0 t1
      = (if nx * (lerp a c t0).x + ny * (lerp a c t0).y - d > epsilon
            ∧ nx * (lerp a c t1).x + ny * (lerp a c t1).y - d > epsilon then
          lineTraceF fuel nodes f a c t0 t1
        else if nx * (lerp a c t0).x + ny * (lerp a c t0).y - d ≤ epsilon
            ∧ nx * (lerp a c t1).x + ny * (lerp a c t1).y - d ≤ epsilon then
          lineTraceF fuel nodes bk a c t0 t1
        else
          (fun tMid =>
            (fun near => (fun far =>
              (fun hitNear =>
                if hitNear.1 then hitNear
                else lineTraceF fuel nodes far a c tMid t1)
                (lineTraceF fuel nodes near a c t0 tMid))
              (if nx * (lerp a c t0).x + ny * (lerp a c t0).y - d > 0
                then bk else f))
              (if nx * (lerp a c t0).x + ny * (lerp a c t0).y - d > 0
                then f else bk))
            (t0 + crossParam (nx * (lerp a c t0).x + ny * (lerp a c t0).y - d)
              (nx * (lerp a c t1).x + ny * (lerp a c t1).y - d) * (t1 - t0))) := by
  rw [lineTraceF, hat]

/-- Fuel-indexed shape invariant of built trees: below every split, a
point that is solid in the front subtree is also solid in the back
subtree. Chains satisfy it because their front children are empty
leaves; merges preserve it because their front and back children are
merges against the same second tree. -/
def goodF (nodes : List BSPNode) : ℕ → Int → Prop
  | 0, _ => True
  | fuel + 1, i =>
      match nodeAt nodes i with
      | some (.split _ _ _ f bk) =>
          goodF nodes fuel f ∧ goodF nodes fuel bk
            ∧ ∀ pt, QW nodes f pt = true → QW nodes bk pt = true
      | _ => True

/-- The shape invariant with canonical fuel. -/
def Good (nodes : List BSPNode) (i : Int) : Prop :=
  goodF nodes (i.toNat + 1) i

lemma goodF_other {nodes : List BSPNode} {i : Int} (fuel : ℕ)
    (hat : ∀ nx ny d f bk, nodeAt nodes i ≠ some (.split nx ny d f bk)) :
    goodF nodes (fuel + 1) i := by
  rw [goodF]
  cases hn : nodeAt nodes i with
  | none => trivial
  | some nd =>
      cases nd with
      | leaf sid pis s => trivial
      | split nx ny d f bk => exact absurd hn (hat nx ny d f bk)

lemma goodF_split_iff {nodes : List BSPNode} {i : Int} (fuel : ℕ)
    {nx ny d : ℚ} {f bk : Int}
    (hat : nodeAt nodes i = some (.split nx ny d f bk)) :
    goodF nodes (fuel + 1) i ↔
      goodF nodes fuel f ∧ goodF nodes fuel bk
        ∧ ∀ pt, QW nodes f pt = true → QW nodes bk pt = true := by
  rw [goodF, hat]

lemma goodF_fuel {nodes : List BSPNode} (hwf : WFNodes nodes) :
    ∀ (fuel : ℕ) (i : Int), i.toNat < fuel →
      (goodF nodes fuel i ↔ Good nodes i) := by
  intro fuel
  induction fuel using Nat.strong_induction_on with
  | _ fuel ih =>
      intro i hfuel
      match fuel, hfuel with
      | fuel + 1, hfuel =>
        cases hn : nodeAt nodes i with
        | none =>
            rw [Good]
            constructor
            · intro _
              exact goodF_other i.toNat (by simp [hn])
            · intro _
              exact goodF_other fuel (by simp [hn])
        | some nd =>
            cases nd with
            | leaf sid pis s =>
                rw [Good]
                constructor
                · intro _
                  exact goodF_other i.toNat (by simp [hn])
                · intro _
                  exact goodF_other fuel (by simp [hn])
            | split nx ny d f bk =>
                obtain ⟨hf0, hflt, hb0, hblt⟩ := wf_children hwf hn
                rw [Good, goodF_split_iff fuel hn, goodF_split_iff i.toNat hn]
                constructor
                · rintro ⟨h1, h2, h3⟩
                  exact ⟨(ih i.toNat (by omega) f (by omega)).mpr
                      ((ih fuel (by omega) f (by omega)).mp h1),
                    (ih i.toNat (by omega) bk (by omega)).mpr
                      ((ih fuel (by omega) bk (by omega)).mp h2), h3⟩
                · rintro ⟨h1, h2, h3⟩
                  exact ⟨(ih fuel (by omega) f (by omega)).mpr
                      ((ih i.toNat (by omega) f (by omega)).mp h1),
                    (ih fuel (by omega) bk (by omega)).mpr
                      ((ih i.toNat (by omega) bk (by omega)).mp h2), h3⟩

/-- Unfolding of Good at a split on a well-formed array. -/
lemma Good_split {nodes : List BSPNode} (hwf : WFNodes nodes) {i : Int}
    {nx ny d : ℚ} {f bk : Int}
    (hat : nodeAt nodes i = some (.split nx ny d f bk)) :
    Good nodes i ↔
      Good nodes f ∧ Good nodes bk
        ∧ ∀ pt, QW nodes f pt = true → QW nodes bk pt = true := by
  obtain ⟨hf0, hflt, hb0, hblt⟩ := wf_children hwf hat
  rw [Good, goodF_split_iff i.toNat hat,
    goodF_fuel hwf i.toNat f (by omega), goodF_fuel hwf i.toNat bk (by omega)]

/-- Good holds at every leaf. -/
lemma Good_leaf {nodes : List BSPNode} {i : Int} {sid : Int}
    {pis : List Int} {s : Bool}
    (hat : nodeAt nodes i = some (.leaf sid pis s)) : Good nodes i :=
  goodF_other i.toNat (by simp [hat])

/-- Good is stable under appending nodes after a well-formed block. -/
lemma goodF_append {n₁ : List BSPNode} (hwf : WFNodes n₁) (t : List BSPNode) :
    ∀ (fuel : ℕ) (i : Int), i.toNat < n₁.length →
      (goodF (n₁ ++ t) fuel i ↔ goodF n₁ fuel i) := by
  intro fuel
  induction fuel with
  | zero => intro i _; rfl
  | succ fuel ih =>
      intro i hi
      have hat : nodeAt (n₁ ++ t) i = nodeAt n₁ i := nodeAt_append hi
      cases hn : nodeAt n₁ i with
      | none =>
          constructor
          · intro _; exact goodF_other fuel (by simp [hn])
          · intro _; exact goodF_other fuel (by simp [hat, hn])
      | some nd =>
          cases nd with
          | leaf sid pis s =>
              constructor
              · intro _; exact goodF_other fuel (by simp [hn])
              · intro _; exact goodF_other fuel (by simp [hat, hn])
          | split nx ny d f bk =>
              obtain ⟨hf0, hflt, hb0, hblt⟩ := wf_children hwf hn
              rw [goodF_split_iff fuel (hat.trans hn), goodF_split_iff fuel hn,
                ih f (by omega), ih bk (by omega)]
              constructor
              · rintro ⟨h1, h2, h3⟩
                refine ⟨h1, h2, fun pt hq => ?_⟩
                have := h3 pt
                rw [QW_append hwf t (by omega) pt,
                  QW_append hwf t (by omega) pt] at this
                exact this hq
              · rintro ⟨h1, h2, h3⟩
                refine ⟨h1, h2, fun pt hq => ?_⟩
                rw [QW_append hwf t (by omega) pt] at hq ⊢
                exact h3 pt hq

lemma Good_extends {a b : Builder} (hwf : WFNodes a.nodes) (hext : Extends a b)
    {i : Int} (hv : ValidIdx a i) (hg : Good a.nodes i) : Good b.nodes i := by
  obtain ⟨t, ht⟩ := hext
  rw [Good] at hg ⊢
  rw [ht]
  exact (goodF_append hwf t (i.toNat + 1) i hv.2).mpr hg

lemma addSplitNode_nodeAt {b : Builder} (nx ny d : ℚ) (f bk : Int) :
    nodeAt (addSplitNode b nx ny d f bk).2.nodes
        (addSplitNode b nx ny d f bk).1
      = some (.split nx ny d f bk) := by
  show nodeAt (b.nodes ++ [.split nx ny d f bk]) (b.nodes.length : Int) = _
  unfold nodeAt
  rw [if_pos (Int.natCast_nonneg _), Int.toNat_natCast]
  exact getElem?_concat_len b.nodes _

/-- The merged tree answers the point query as the OR of its two input
trees. -/
lemma mergePairF_QW :
    ∀ (fuel : ℕ) (b : Builder) (i1 i2 : Int) (pt : Point), WFNodes b.nodes →
      ValidIdx b i1 → ValidIdx b i2 → i1.toNat < fuel →
      QW (mergePairF fuel b i1 i2).2.nodes (mergePairF fuel b i1 i2).1 pt
        = (QW b.nodes i1 pt || QW b.nodes i2 pt) := by
  intro fuel
  induction fuel using Nat.strong_induction_on with
  | _ fuel ih =>
      intro b i1 i2 pt hwf hv1 hv2 hfuel
      match fuel, hfuel with
      | fuel + 1, hfuel =>
        obtain ⟨nd, hat⟩ := validIdx_nodeAt hv1
        cases nd with
        | leaf sid pis s =>
            rw [mergePairF_leaf fuel b i2 hat]
            have hq1 : QW b.nodes i1 pt = s := QW_leaf hat pt
            cases s
            · rw [if_neg Bool.false_ne_true]
              rw [hq1]
              simp
            · rw [if_pos rfl]
              rw [hq1]
              simp
        | split nx ny d fr bk =>
            rw [mergePairF_split fuel b i2 hat]
            obtain ⟨hf0, hflt, hb0, hblt⟩ := wf_children hwf hat
            have h1len := hv1.2
            have hvf : ValidIdx b fr := ⟨hf0, by omega⟩
            have hvb : ValidIdx b bk := ⟨hb0, by omega⟩
            obtain ⟨hwfF, hextF, hvFM⟩ := mergePairF_wf fuel b fr i2 hwf hvf hv2
            obtain ⟨hwfB, hextB, hvBM⟩ :=
              mergePairF_wf fuel (mergePairF fuel b fr i2).2 bk i2 hwfF
                (hvb.mono hextF) (hv2.mono hextF)
            have hwfS := (@addSplitNode_wf _ hwfB nx ny d _ _
              (hvFM.mono hextB) hvBM).1
            rw [QW_split hwfS (addSplitNode_nodeAt nx ny d _ _) pt]
            have hfront : QW (addSplitNode
                  (mergePairF fuel (mergePairF fuel b fr i2).2 bk i2).2 nx ny d
                  (mergePairF fuel b fr i2).1
                  (mergePairF fuel (mergePairF fuel b fr i2).2 bk i2).1).2.nodes
                (mergePairF fuel b fr i2).1 pt
                = (QW b.nodes fr pt || QW b.nodes i2 pt) := by
              have s1 : QW ((mergePairF fuel (mergePairF fuel b fr i2).2 bk
                    i2).2.nodes ++ [.split nx ny d (mergePairF fuel b fr i2).1
                      (mergePairF fuel (mergePairF fuel b fr i2).2 bk i2).1])
                  (mergePairF fuel b fr i2).1 pt
                  = QW (mergePairF fuel (mergePairF fuel b fr i2).2 bk
                      i2).2.nodes (mergePairF fuel b fr i2).1 pt :=
                QW_append hwfB _ (hvFM.mono hextB).2 pt
              have s2 : QW (mergePairF fuel (mergePairF fuel b fr i2).2 bk
                    i2).2.nodes (mergePairF fuel b fr i2).1 pt
                  = QW (mergePairF fuel b fr i2).2.nodes
                      (mergePairF fuel b fr i2).1 pt := by
                obtain ⟨t, ht⟩ := hextB
                rw [ht]
                exact QW_append hwfF t hvFM.2 pt
              exact s1.trans (s2.trans (ih fuel (by omega) b fr i2 pt hwf hvf
                hv2 (by omega)))
            have hback : QW (addSplitNode
                  (mergePairF fuel (mergePairF fuel b fr i2).2 bk i2).2 nx ny d
                  (mergePairF fuel b fr i2).1
                  (mergePairF fuel (mergePairF fuel b fr i2).2 bk i2).1).2.nodes
                (mergePairF fuel (mergePairF fuel b fr i2).2 bk i2).1 pt
                = (QW b.nodes bk pt || QW b.nodes i2 pt) := by
              have s1 : QW ((mergePairF fuel (mergePairF fuel b fr i2).2 bk
                    i2).2.nodes ++ [.split nx ny d (mergePairF fuel b fr i2).1
                      (mergePairF fuel (mergePairF fuel b fr i2).2 bk i2).1])
                  (mergePairF fuel (mergePairF fuel b fr i2).2 bk i2).1 pt
                  = QW (mergePairF fuel (mergePairF fuel b fr i2).2 bk
                      i2).2.nodes
                      (mergePairF fuel (mergePairF fuel b fr i2).2 bk i2).1 pt :=
                QW_append hwfB _ hvBM.2 pt
              have s2 := ih fuel (by omega) (mergePairF fuel b fr i2).2 bk i2 pt
                hwfF (hvb.mono hextF) (hv2.mono hextF) (by omega)
              have s3 : QW (mergePairF fuel b fr i2).2.nodes bk pt
                  = QW b.nodes bk pt := by
                obtain ⟨t, ht⟩ := hextF
                rw [ht]
                exact QW_append hwf t hvb.2 pt
              have s4 : QW (mergePairF fuel b fr i2).2.nodes i2 pt
                  = QW b.nodes i2 pt := by
                obtain ⟨t, ht⟩ := hextF
                rw [ht]
                exact QW_append hwf t hv2.2 pt
              exact s1.trans (s2.trans (by rw [s3, s4]))
            rw [hfront, hback, QW_split hwf hat pt]
            by_cases hs : Line.PointSide ⟨⟨nx, ny⟩, d⟩ pt > 0
            · rw [if_pos hs, if_pos hs]
            · rw [if_neg hs, if_neg hs]

/-- Merging two Good trees yields a Good tree. -/
lemma mergePairF_good :
    ∀ (fuel : ℕ) (b : Builder) (i1 i2 : Int), WFNodes b.nodes →
      ValidIdx b i1 → ValidIdx b i2 → i1.toNat < fuel →
      Good b.nodes i1 → Good b.nodes i2 →
      Good (mergePairF fuel b i1 i2).2.nodes (mergePairF fuel b i1 i2).1 := by
  intro fuel
  induction fuel using Nat.strong_induction_on with
  | _ fuel ih =>
      intro b i1 i2 hwf hv1 hv2 hfuel hg1 hg2
      match fuel, hfuel with
      | fuel + 1, hfuel =>
        obtain ⟨nd, hat⟩ := validIdx_nodeAt hv1
        cases nd with
        | leaf sid pis s =>
            rw [mergePairF_leaf fuel b i2 hat]
            cases s
            · rw [if_neg Bool.false_ne_true]; exact hg2
            · rw [if_pos rfl]; exact hg1
        | split nx ny d fr bk =>
            rw [mergePairF_split fuel b i2 hat]
            obtain ⟨hf0, hflt, hb0, hblt⟩ := wf_children hwf hat
            have h1len := hv1.2
            have hvf : ValidIdx b fr := ⟨hf0, by omega⟩
            have hvb : ValidIdx b bk := ⟨hb0, by omega⟩
            obtain ⟨hgf, hgb, hcond⟩ := (Good_split hwf hat).mp hg1
            obtain ⟨hwfF, hextF, hvFM⟩ := mergePairF_wf fuel b fr i2 hwf hvf hv2
            obtain ⟨hwfB, hextB, hvBM⟩ :=
              mergePairF_wf fuel (mergePairF fuel b fr i2).2 bk i2 hwfF
                (hvb.mono hextF) (hv2.mono hextF)
            have hwfS := (@addSplitNode_wf _ hwfB nx ny d _ _
              (hvFM.mono hextB) hvBM).1
            have hextS : Extends
                (mergePairF fuel (mergePairF fuel b fr i2).2 bk i2).2
                (addSplitNode
                  (mergePairF fuel (mergePairF fuel b fr i2).2 bk i2).2
                  nx ny d (mergePairF fuel b fr i2).1
                  (mergePairF fuel (mergePairF fuel b fr i2).2 bk i2).1).2 :=
              ⟨[.split nx ny d (mergePairF fuel b fr i2).1
                (mergePairF fuel (mergePairF fuel b fr i2).2 bk i2).1], rfl⟩
            rw [Good_split hwfS (addSplitNode_nodeAt nx ny d _ _)]
            refine ⟨?_, ?_, ?_⟩
            · have hgFM : Good (mergePairF fuel b fr i2).2.nodes
                  (mergePairF fuel b fr i2).1 :=
                ih fuel (by omega) b fr i2 hwf hvf hv2 (by omega) hgf hg2
              exact Good_extends hwfB hextS (hvFM.mono hextB)
                (Good_extends hwfF hextB hvFM hgFM)
            · have hgFb : Good (mergePairF fuel b fr i2).2.nodes bk :=
                Good_extends hwf hextF hvb hgb
              have hgFi2 : Good (mergePairF fuel b fr i2).2.nodes i2 :=
                Good_extends hwf hextF hv2 hg2
              have hgBM : Good
                  (mergePairF fuel (mergePairF fuel b fr i2).2 bk i2).2.nodes
                  (mergePairF fuel (mergePairF fuel b fr i2).2 bk i2).1 :=
                ih fuel (by omega) (mergePairF fuel b fr i2).2 bk i2 hwfF
                  (hvb.mono hextF) (hv2.mono hextF) (by omega) hgFb hgFi2
              exact Good_extends hwfB hextS hvBM hgBM
            · intro pt
              have hqF : QW (addSplitNode
                    (mergePairF fuel (mergePairF fuel b fr i2).2 bk i2).2
                    nx ny d (mergePairF fuel b fr i2).1
                    (mergePairF fuel (mergePairF fuel b fr i2).2 bk
                      i2).1).2.nodes
                  (mergePairF fuel b fr i2).1 pt
                  = (QW b.nodes fr pt || QW b.nodes i2 pt) := by
                have s1 : QW ((mergePairF fuel (mergePairF fuel b fr i2).2 bk
                      i2).2.nodes ++ [.split nx ny d
                        (mergePairF fuel b fr i2).1
                        (mergePairF fuel (mergePairF fuel b fr i2).2 bk
                          i2).1])
                    (mergePairF fuel b fr i2).1 pt
                    = QW (mergePairF fuel (mergePairF fuel b fr i2).2 bk
                        i2).2.nodes (mergePairF fuel b fr i2).1 pt :=
                  QW_append hwfB _ (hvFM.mono hextB).2 pt
                have s2 : QW (mergePairF fuel (mergePairF fuel b fr i2).2 bk
                      i2).2.nodes (mergePairF fuel b fr i2).1 pt
                    = QW (mergePairF fuel b fr i2).2.nodes
                        (mergePairF fuel b fr i2).1 pt := by
                  obtain ⟨t, ht⟩ := hextB
                  rw [ht]
                  exact QW_append hwfF t hvFM.2 pt
                exact s1.trans (s2.trans (mergePairF_QW fuel b fr i2 pt hwf
                  hvf hv2 (by omega)))
              have hqB : QW (addSplitNode
                    (mergePairF fuel (mergePairF fuel b fr i2).2 bk i2).2
                    nx ny d (mergePairF fuel b fr i2).1
                    (mergePairF fuel (mergePairF fuel b fr i2).2 bk
                      i2).1).2.nodes
                  (mergePairF fuel (mergePairF fuel b fr i2).2 bk i2).1 pt
                  = (QW b.nodes bk pt || QW b.nodes i2 pt) := by
                have s1 : QW ((mergePairF fuel (mergePairF fuel b fr i2).2 bk
                      i2).2.nodes ++ [.split nx ny d
                        (mergePairF fuel b fr i2).1
                        (mergePairF fuel (mergePairF fuel b fr i2).2 bk
                          i2).1])
                    (mergePairF fuel (mergePairF fuel b fr i2).2 bk i2).1 pt
                    = QW (mergePairF fuel (mergePairF fuel b fr i2).2 bk
                        i2).2.nodes
                        (mergePairF fuel (mergePairF fuel b fr i2).2 bk
                          i2).1 pt :=
                  QW_append hwfB _ hvBM.2 pt
                have s2 := mergePairF_QW fuel (mergePairF fuel b fr i2).2 bk
                  i2 pt hwfF (hvb.mono hextF) (hv2.mono hextF) (by omega)
                have s3 : QW (mergePairF fuel b fr i2).2.nodes bk pt
                    = QW b.nodes bk pt := by
                  obtain ⟨t, ht⟩ := hextF
                  rw [ht]
                  exact QW_append hwf t hvb.2 pt
                have s4 : QW (mergePairF fuel b fr i2).2.nodes i2 pt
                    = QW b.nodes i2 pt := by
                  obtain ⟨t, ht⟩ := hextF
                  rw [ht]
                  exact QW_append hwf t hv2.2 pt
                exact s1.trans (s2.trans (by rw [s3, s4]))
              rw [hqF, hqB]
              intro hor
              rcases Bool.or_eq_true_iff.mp hor with h | h
              · rw [hcond pt h]; simp
              · rw [h]; simp

lemma addLeafNode_nodeAt {b : Builder} (sid : Int) (pis : List Int)
    (s : Bool) :
    nodeAt (addLeafNode b sid pis s).2.nodes (addLeafNode b sid pis s).1
      = some (.leaf sid pis s) := by
  show nodeAt (b.nodes ++ [.leaf sid pis s]) (b.nodes.length : Int) = _
  unfold nodeAt
  rw [if_pos (Int.natCast_nonneg _), Int.toNat_natCast]
  exact getElem?_concat_len b.nodes _

/-- Every chain produced by buildEdgeTest is Good: each split's front
child is an empty leaf, so the front-implies-back query condition is
vacuous. -/
lemma buildEdgeTest_good (sqrt : ℚ → ℚ) (poly : Polygon) :
    ∀ (k : ℕ) (b : Builder), WFNodes b.nodes →
      Good (buildEdgeTest sqrt b poly k).2.nodes
        (buildEdgeTest sqrt b poly k).1 := by
  have H : ∀ (m k : ℕ), poly.vertices.length - k ≤ m → ∀ b, WFNodes b.nodes →
      Good (buildEdgeTest sqrt b poly k).2.nodes
        (buildEdgeTest sqrt b poly k).1 := by
    intro m
    induction m with
    | zero =>
        intro k hk b hwf
        rw [buildEdgeTest_base sqrt b poly (by omega)]
        exact Good_leaf (addLeafNode_nodeAt 0 [] true)
    | succ m ih =>
        intro k hk b hwf
        by_cases hge : k ≥ poly.vertices.length
        · rw [buildEdgeTest_base sqrt b poly hge]
          exact Good_leaf (addLeafNode_nodeAt 0 [] true)
        · rw [buildEdgeTest_step sqrt b poly hge]
          obtain ⟨hwf1, hext1, hv1⟩ := addLeafNode_wf hwf 0 [] false
          obtain ⟨hwf2, hext2, hv2⟩ :=
            buildEdgeTest_wf sqrt poly (k + 1) _ hwf1
          have hgrec := ih (k + 1) (by omega) _ hwf1
          obtain ⟨hwf3, hext3, hv3⟩ :=
            @addSplitNode_wf _ hwf2 (edgeNormal sqrt poly k).x
              (edgeNormal sqrt poly k).y (edgeDist sqrt poly k) _ _
              (hv1.mono hext2) hv2
          have hatL : nodeAt (addSplitNode
              (buildEdgeTest sqrt (addLeafNode b 0 [] false).2 poly (k + 1)).2
              (edgeNormal sqrt poly k).x (edgeNormal sqrt poly k).y
              (edgeDist sqrt poly k)
              (addLeafNode b 0 [] false).1
              (buildEdgeTest sqrt (addLeafNode b 0 [] false).2 poly
                (k + 1)).1).2.nodes
              (addLeafNode b 0 [] false).1 = some (.leaf 0 [] false) :=
            nodeAt_extends (hext2.trans hext3) (addLeafNode_nodeAt 0 [] false)
          rw [Good_split hwf3 (addSplitNode_nodeAt _ _ _ _ _)]
          refine ⟨Good_leaf hatL, Good_extends hwf2 hext3 hv2 hgrec, ?_⟩
          intro pt hfalse
          exact absurd (hfalse.symm.trans (QW_leaf hatL pt)) (by simp)
  intro k b hwf
  exact H (poly.vertices.length - k) k (le_refl _) b hwf

lemma buildConvexPolygonTree_good (sqrt : ℚ → ℚ) (poly : Polygon)
    (b : Builder) (hwf : WFNodes b.nodes) :
    Good (buildConvexPolygonTree sqrt b poly).2.nodes
      (buildConvexPolygonTree sqrt b poly).1 := by
  unfold buildConvexPolygonTree
  by_cases h : poly.vertices.length < 3
  · rw [if_pos h]
    exact Good_leaf (addLeafNode_nodeAt 0 [] false)
  · rw [if_neg h]
    exact buildEdgeTest_good sqrt (ensureCCW poly) 0 b hwf

lemma mergeTrees_good :
    ∀ (ts : List Int) (b : Builder), WFNodes b.nodes →
      (∀ i ∈ ts, ValidIdx b i) → (∀ i ∈ ts, Good b.nodes i) →
      Good (mergeTrees b ts).2.nodes (mergeTrees b ts).1 := by
  intro ts
  induction ts with
  | nil =>
      intro b hwf _ _
      exact Good_leaf (addLeafNode_nodeAt 0 [] false)
  | cons t rest ih =>
      intro b hwf hvs hgs
      cases rest with
      | nil => exact hgs t (by simp)
      | cons r2 rest2 =>
          rw [show mergeTrees b (t :: r2 :: rest2)
              = mergeTreePair (mergeTrees b (r2 :: rest2)).2 t
                  (mergeTrees b (r2 :: rest2)).1 from rfl]
          obtain ⟨hwfR, hextR, hvR⟩ := mergeTrees_wf (r2 :: rest2) b hwf
            (fun i hi => hvs i (List.mem_cons_of_mem t hi))
          have hvt : ValidIdx (mergeTrees b (r2 :: rest2)).2 t :=
            (hvs t (List.mem_cons_self t _)).mono hextR
          have hgt : Good (mergeTrees b (r2 :: rest2)).2.nodes t :=
            Good_extends hwf hextR (hvs t (List.mem_cons_self t _))
              (hgs t (List.mem_cons_self t _))
          have hgR : Good (mergeTrees b (r2 :: rest2)).2.nodes
              (mergeTrees b (r2 :: rest2)).1 :=
            ih b hwf (fun i hi => hvs i (List.mem_cons_of_mem t hi))
              (fun i hi => hgs i (List.mem_cons_of_mem t hi))
          exact mergePairF_good (t.toNat + 1) (mergeTrees b (r2 :: rest2)).2 t
            (mergeTrees b (r2 :: rest2)).1 hwfR hvt hvR (by omega) hgt hgR

lemma chainFold_good (sqrt : ℚ → ℚ) :
    ∀ (l : List Polygon) (acc : List Int × Builder), WFNodes acc.2.nodes →
      (∀ i ∈ acc.1, ValidIdx acc.2 i) →
      (∀ i ∈ acc.1, Good acc.2.nodes i) →
      ∀ i ∈ (l.foldl (chainStep sqrt) acc).1,
        Good (l.foldl (chainStep sqrt) acc).2.nodes i := by
  intro l
  induction l with
  | nil => intro acc _ _ hgs; exact hgs
  | cons poly rest ih =>
      intro acc hwf hvs hgs
      rw [List.foldl_cons]
      by_cases hc : poly.isSolid ∧ poly.vertices.length ≥ 3
      · have hstep : chainStep sqrt acc poly
            = (acc.1 ++ [(buildConvexPolygonTree sqrt acc.2 poly).1],
               (buildConvexPolygonTree sqrt acc.2 poly).2) := by
          rw [chainStep, if_pos hc]
        obtain ⟨hwfT, hextT, hvT⟩ :=
          buildConvexPolygonTree_wf sqrt poly acc.2 hwf
        have hgT := buildConvexPolygonTree_good sqrt poly acc.2 hwf
        refine ih (chainStep sqrt acc poly) (by rw [hstep]; exact hwfT) ?_ ?_
        · rw [hstep]
          intro i hi
          rcases List.mem_append.mp hi with hi | hi
          · exact (hvs i hi).mono hextT
          · rw [List.mem_singleton.mp hi]
            exact hvT
        · rw [hstep]
          intro i hi
          rcases List.mem_append.mp hi with hi | hi
          · exact Good_extends hwf hextT (hvs i hi) (hgs i hi)
          · rw [List.mem_singleton.mp hi]
            exact hgT
      · have hstep : chainStep sqrt acc poly = acc := by
          rw [chainStep, if_neg hc]
        rw [hstep]
        exact ih acc hwf hvs hgs

/-- The root of every built tree is Good. -/
lemma Build_good (sqrt : ℚ → ℚ) (part : Polygon → Option (List Polygon))
    (polys : List Polygon) :
    Good (Build sqrt part polys).nodes (Build sqrt part polys).rootIndex := by
  have hinit : WFNodes (Builder.mk []).nodes := fun k => absurd k.2 (by simp)
  obtain ⟨hwf2, _, hvs2⟩ := chainFold_wf sqrt
    (polys.foldl (collectStep part) []) ([], ⟨[]⟩) hinit (by simp)
  have hgs2 := chainFold_good sqrt (polys.foldl (collectStep part) [])
    ([], ⟨[]⟩) hinit (by simp) (by simp)
  unfold Build
  by_cases h0 :
      ((polys.foldl (collectStep part) []).foldl (chainStep sqrt)
        ([], ⟨[]⟩)).1.length = 0
  · simp only [h0, if_pos rfl]
    exact Good_leaf (addLeafNode_nodeAt 0 [] false)
  · simp only [if_neg h0]
    by_cases h1 :
        ((polys.foldl (collectStep part) []).foldl (chainStep sqrt)
          ([], ⟨[]⟩)).1.length = 1
    · simp only [h1, if_pos rfl]
      exact hgs2 _ (getD_mem_of_length_one h1)
    · simp only [if_neg h1]
      exact mergeTrees_good _ _ hwf2 hvs2 hgs2

lemma lerp_zero (a c : Point) : lerp a c 0 = a := by
  cases a
  simp [lerp]

/-- On a well-formed Good array, a trace whose start point queries solid
hits immediately at the start point. -/
lemma trace_hit_start {nodes : List BSPNode} (hwf : WFNodes nodes) :
    ∀ (fuel : ℕ) (i : Int), i.toNat < fuel → 0 ≤ i →
      i.toNat < nodes.length → Good nodes i → ∀ (a c : Point),
      QW nodes i a = true → ∀ t1,
      lineTraceF fuel nodes i a c 0 t1 = (true, a.x, a.y) := by
  intro fuel
  induction fuel using Nat.strong_induction_on with
  | _ fuel ih =>
      intro i hfuel h0 hlen hg a c hq t1
      match fuel, hfuel with
      | fuel + 1, hfuel =>
        obtain ⟨nd, hat⟩ := validIdx_nodeAt (b := ⟨nodes⟩) ⟨h0, hlen⟩
        cases nd with
        | leaf sid pis s =>
            have hs : s = true := (QW_leaf hat a).symm.trans hq
            rw [lineTraceF_leaf fuel a c 0 t1 hat, hs, if_pos rfl, lerp_zero]
        | split nx ny d f bk =>
            obtain ⟨hf0, hflt, hb0, hblt⟩ := wf_children hwf hat
            obtain ⟨hgf, hgb, hcond⟩ := (Good_split hwf hat).mp hg
            have hqsplit := (QW_split hwf hat a).symm.trans hq
            have hside : Line.PointSide ⟨⟨nx, ny⟩, d⟩ a
                = nx * a.x + ny * a.y - d := rfl
            have hqb : QW nodes bk a = true := by
              by_cases hgt : Line.PointSide ⟨⟨nx, ny⟩, d⟩ a > 0
              · rw [if_pos hgt] at hqsplit
                exact hcond a hqsplit
              · rw [if_neg hgt] at hqsplit
                exact hqsplit
            rw [lineTraceF_split fuel a c 0 t1 hat, lerp_zero]
            by_cases hA : nx * a.x + ny * a.y - d > epsilon
                ∧ nx * (lerp a c t1).x + ny * (lerp a c t1).y - d > epsilon
            · rw [if_pos hA]
              have hd0pos : Line.PointSide ⟨⟨nx, ny⟩, d⟩ a > 0 := by
                have heps : (0 : ℚ) < epsilon := by norm_num [epsilon]
                rw [hside]
                linarith [hA.1]
              have hqf : QW nodes f a = true := by
                rw [if_pos hd0pos] at hqsplit
                exact hqsplit
              exact ih fuel (by omega) f (by omega) hf0 (by omega) hgf a c
                hqf t1
            · rw [if_neg hA]
              by_cases hB : nx * a.x + ny * a.y - d ≤ epsilon
                  ∧ nx * (lerp a c t1).x + ny * (lerp a c t1).y - d ≤ epsilon
              · rw [if_pos hB]
                exact ih fuel (by omega) bk (by omega) hb0 (by omega) hgb a c
                  hqb t1
              · rw [if_neg hB]
                by_cases hd0 : nx * a.x + ny * a.y - d > 0
                · simp only [if_pos hd0]
                  have hqf : QW nodes f a = true := by
                    rw [if_pos (by rw [hside]; exact hd0)] at hqsplit
                    exact hqsplit
                  have hnear := ih fuel (by omega) f (by omega) hf0
                    (by omega) hgf a c hqf
                    (0 + crossParam (nx * a.x + ny * a.y - d)
                      (nx * (lerp a c t1).x + ny * (lerp a c t1).y - d)
                      * (t1 - 0))
                  rw [hnear]
                  simp
                · simp only [if_neg hd0]
                  have hnear := ih fuel (by omega) bk (by omega) hb0
                    (by omega) hgb a c hqb
                    (0 + crossParam (nx * a.x + ny * a.y - d)
                      (nx * (lerp a c t1).x + ny * (lerp a c t1).y - d)
                      * (t1 - 0))
                  rw [hnear]
                  simp

/-- An affine function of the parameter attains its window values as
bounds: on [t0, t1] it lies between its values at the endpoints. -/
lemma affine_between (P Q : ℚ) {t0 t1 t : ℚ} (h0 : t0 ≤ t) (h1 : t ≤ t1) :
    (P + t0 * Q ≤ P + t * Q ∨ P + t1 * Q ≤ P + t * Q)
      ∧ (P + t * Q ≤ P + t0 * Q ∨ P + t * Q ≤ P + t1 * Q) := by
  constructor
  · rcases le_total 0 Q with hq | hq
    · left; nlinarith
    · right; nlinarith
  · rcases le_total 0 Q with hq | hq
    · right; nlinarith
    · left; nlinarith

/-- On a well-formed array, a trace whose parametric window keeps the
segment strictly outside the epsilon band of every split plane, and
whose every window point queries empty, reports no hit, for every fuel. -/
lemma trace_no_hit {nodes : List BSPNode} (hwf : WFNodes nodes)
    (a c : Point) (t0 t1 : ℚ) (h01 : t0 ≤ t1)
    (hband : ∀ (k : Int) (nx ny d : ℚ) (f bk : Int),
      nodeAt nodes k = some (.split nx ny d f bk) →
      ∀ t : ℚ, t0 ≤ t → t ≤ t1 →
        epsilon < |nx * (lerp a c t).x + ny * (lerp a c t).y - d|) :
    ∀ (fuel : ℕ) (i : Int),
      (∀ t : ℚ, t0 ≤ t → t ≤ t1 → QW nodes i (lerp a c t) = false) →
      lineTraceF fuel nodes i a c t0 t1 = (false, 0, 0) := by
  have heps : (0 : ℚ) < epsilon := by norm_num [epsilon]
  intro fuel
  induction fuel with
  | zero => intro i _; rfl
  | succ fuel ih =>
      intro i hpt
      cases hat : nodeAt nodes i with
      | none => exact lineTraceF_none fuel a c t0 t1 hat
      | some nd =>
          cases nd with
          | leaf sid pis s =>
              have hs : s = false :=
                (QW_leaf hat (lerp a c t0)).symm.trans (hpt t0 le_rfl h01)
              rw [lineTraceF_leaf fuel a c t0 t1 hat, hs]
              simp
          | split nx ny d f bk =>
              have hgt : ∀ t : ℚ,
                  nx * (lerp a c t).x + ny * (lerp a c t).y - d
                    = (nx * a.x + ny * a.y - d)
                      + t * (nx * (c.x - a.x) + ny * (c.y - a.y)) := by
                intro t
                simp only [lerp]
                ring
              set P := nx * a.x + ny * a.y - d with hP
              set Q := nx * (c.x - a.x) + ny * (c.y - a.y) with hQ
              have hside : ∀ t : ℚ,
                  Line.PointSide ⟨⟨nx, ny⟩, d⟩ (lerp a c t) = P + t * Q :=
                fun t => hgt t
              have hb : ∀ t : ℚ, t0 ≤ t → t ≤ t1 → epsilon < |P + t * Q| := by
                intro t hl hr
                have := hband i nx ny d f bk hat t hl hr
                rw [hgt t] at this
                exact this
              have h0 := lt_abs.mp (hb t0 le_rfl h01)
              have h1 := lt_abs.mp (hb t1 h01 le_rfl)
              have hmixed : ∀ s0 s1 : ℚ, t0 ≤ s0 → s0 ≤ t1 → t0 ≤ s1 →
                  s1 ≤ t1 → epsilon < P + s0 * Q → epsilon < -(P + s1 * Q) →
                  False := by
                intro s0 s1 hs00 hs01 hs10 hs11 hp hn
                have hQne : Q ≠ 0 := by
                  intro hq0
                  rw [hq0] at hp hn
                  simp at hp hn
                  linarith
                have hzero : P + -P / Q * Q = 0 := by
                  rw [div_mul_cancel₀ _ hQne]
                  ring
                have hwin : t0 ≤ -P / Q ∧ -P / Q ≤ t1 := by
                  rcases lt_trichotomy Q 0 with hQneg | hQ0 | hQpos
                  · have hlo : s0 < -P / Q := by
                      rw [lt_div_iff_of_neg hQneg]
                      nlinarith
                    have hhi : -P / Q < s1 := by
                      rw [div_lt_iff_of_neg hQneg]
                      nlinarith
                    exact ⟨le_trans hs00 (le_of_lt hlo),
                      le_trans (le_of_lt hhi) hs11⟩
                  · exact absurd hQ0 hQne
                  · have hlo : s1 < -P / Q := by
                      rw [lt_div_iff₀ hQpos]
                      nlinarith
                    have hhi : -P / Q < s0 := by
                      rw [div_lt_iff₀ hQpos]
                      nlinarith
                    exact ⟨le_trans hs10 (le_of_lt hlo),
                      le_trans (le_of_lt hhi) hs01⟩
                have hb0 := hb (-P / Q) hwin.1 hwin.2
                rw [hzero] at hb0
                simp at hb0
                linarith
              rw [lineTraceF_split fuel a c t0 t1 hat]
              rcases h0 with h0p | h0n
              · rcases h1 with h1p | h1n
                · rw [if_pos ⟨by rw [hgt t0]; linarith,
                    by rw [hgt t1]; linarith⟩]
                  refine ih f ?_
                  intro t hl hr
                  have hqi := hpt t hl hr
                  rw [QW_split hwf hat] at hqi
                  have hpos : Line.PointSide ⟨⟨nx, ny⟩, d⟩ (lerp a c t) > 0 := by
                    rw [hside t]
                    rcases (affine_between P Q hl hr).1 with hc | hc <;> linarith
                  rw [if_pos hpos] at hqi
                  exact hqi
                · exact absurd (hmixed t0 t1 le_rfl h01 h01 le_rfl h0p h1n)
                    (by simp)
              · rcases h1 with h1p | h1n
                · exact absurd (hmixed t1 t0 h01 le_rfl le_rfl h01 h1p h0n)
                    (by simp)
                · rw [if_neg (by
                    intro hA
                    rw [hgt t0] at hA
                    have := hA.1
                    linarith)]
                  rw [if_pos ⟨by rw [hgt t0]; linarith,
                    by rw [hgt t1]; linarith⟩]
                  refine ih bk ?_
                  intro t hl hr
                  have hqi := hpt t hl hr
                  rw [QW_split hwf hat] at hqi
                  have hneg : ¬ Line.PointSide ⟨⟨nx, ny⟩, d⟩ (lerp a c t)
                      > 0 := by
                    rw [hside t]
                    rcases (affine_between P Q hl hr).2 with hc | hc <;> linarith
                  rw [if_neg hneg] at hqi
                  exact hqi

/-- The node array Build produces for the CCW unit square. -/
def usqNodes : List BSPNode :=
  [.leaf 0 [] false, .leaf 0 [] false, .leaf 0 [] false, .leaf 0 [] false,
   .leaf 0 [] true, .split (-1) 0 0 3 4, .split 0 1 1 2 5, .split 1 0 1 1 6,
   .split 0 (-1) 0 0 7]

lemma build_usq_nodes : Build qSqrt partOk [usqPoly] = ⟨usqNodes, 8⟩ := by
  rw [build_usq_eval]
  rfl

lemma usq_wf : WFNodes usqNodes := by decide

lemma usq_at8 : nodeAt usqNodes 8 = some (.split 0 (-1) 0 0 7) := rfl

lemma usq_at7 : nodeAt usqNodes 7 = some (.split 1 0 1 1 6) := rfl

lemma usq_at6 : nodeAt usqNodes 6 = some (.split 0 1 1 2 5) := rfl

lemma usq_at5 : nodeAt usqNodes 5 = some (.split (-1) 0 0 3 4) := rfl

lemma usq_at4 : nodeAt usqNodes 4 = some (.leaf 0 [] true) := rfl

lemma usq_at1 : nodeAt usqNodes 1 = some (.leaf 0 [] false) := rfl

lemma usq_at0 : nodeAt usqNodes 0 = some (.leaf 0 [] false) := rfl

/-- C4 (amended). For every built tree and every segment: (1) if the
point query is solid at the start point, the trace returns a hit exactly
at the start (global parameter t = 0, hit point = from), for every
window end; (2) if the parametric window keeps the segment strictly
outside the closed epsilon band of every split plane of the tree and
every window point queries empty, the trace returns no hit. (The
original claim's part 2, without the epsilon-band proviso, is refuted by
claim_C4_counterexample: a segment inside the band can report a hit even
though it never enters a solid leaf.) -/
theorem claim_C4_trace (sqrt : ℚ → ℚ) (part : Polygon → Option (List Polygon))
    (polys : List Polygon) (a c : Point) :
    (∀ t1 : ℚ,
      PointInBSP (Build sqrt part polys).nodes
        (Build sqrt part polys).rootIndex a = true →
      LineTraceBSPNode (Build sqrt part polys).nodes
        (Build sqrt part polys).rootIndex a c 0 t1 = (true, a.x, a.y))
    ∧ (∀ t0 t1 : ℚ, t0 ≤ t1 →
      (∀ (k : Int) (nx ny d : ℚ) (f bk : Int),
        nodeAt (Build sqrt part polys).nodes k = some (.split nx ny d f bk) →
        ∀ t : ℚ, t0 ≤ t → t ≤ t1 →
          epsilon < |nx * (lerp a c t).x + ny * (lerp a c t).y - d|) →
      (∀ t : ℚ, t0 ≤ t → t ≤ t1 →
        PointInBSP (Build sqrt part polys).nodes
          (Build sqrt part polys).rootIndex (lerp a c t) = false) →
      LineTraceBSPNode (Build sqrt part polys).nodes
        (Build sqrt part polys).rootIndex a c t0 t1 = (false, 0, 0)) := by
  obtain ⟨hwf, hr0, hrlt⟩ := Build_wf sqrt part polys
  have hgood := Build_good sqrt part polys
  constructor
  · intro t1 hq
    rw [PointInBSP_eq_QW hwf] at hq
    exact trace_hit_start hwf ((Build sqrt part polys).nodes.length + 1)
      (Build sqrt part polys).rootIndex (by omega) hr0 hrlt hgood a c hq t1
  · intro t0 t1 h01 hband hpt
    refine trace_no_hit hwf a c t0 t1 h01 hband _ _ ?_
    intro t hl hr
    rw [← PointInBSP_eq_QW hwf]
    exact hpt t hl hr

/-- C4 counterexample to the original part 2: on the built unit-square
tree, the horizontal segment at height -1/20000 (inside the epsilon band
of the bottom split plane, epsilon = 1/10000) queries empty at every
point of its window, yet the trace reports a hit at its start point. -/
theorem claim_C4_counterexample :
    (∀ t : ℚ, 0 ≤ t → t ≤ 1 →
      PointInBSP (Build qSqrt partOk [usqPoly]).nodes
        (Build qSqrt partOk [usqPoly]).rootIndex
        (lerp ⟨1/5, -(1/20000)⟩ ⟨4/5, -(1/20000)⟩ t) = false)
    ∧ LineTraceBSPNode (Build qSqrt partOk [usqPoly]).nodes
        (Build qSqrt partOk [usqPoly]).rootIndex
        ⟨1/5, -(1/20000)⟩ ⟨4/5, -(1/20000)⟩ 0 1
      = (true, 1/5, -(1/20000)) := by
  rw [build_usq_nodes]
  constructor
  · intro t ht0 ht1
    show PointInBSP usqNodes 8
      (lerp ⟨1/5, -(1/20000)⟩ ⟨4/5, -(1/20000)⟩ t) = false
    rw [PointInBSP_eq_QW usq_wf, QW_split usq_wf usq_at8,
      if_pos (by norm_num [Line.PointSide, lerp])]
    exact QW_leaf usq_at0 _
  · show LineTraceBSPNode usqNodes 8
      ⟨1/5, -(1/20000)⟩ ⟨4/5, -(1/20000)⟩ 0 1 = (true, 1/5, -(1/20000))
    rw [LineTraceBSPNode]
    rw [lineTraceF_split usqNodes.length _ _ 0 1 usq_at8]
    norm_num [lerp, epsilon]
    rw [show usqNodes.length = 8 + 1 from rfl,
      lineTraceF_split 8 _ _ 0 1 usq_at7]
    norm_num [lerp, epsilon]
    rw [show (8 : ℕ) = 7 + 1 from rfl, lineTraceF_split 7 _ _ 0 1 usq_at6]
    norm_num [lerp, epsilon]
    rw [show (7 : ℕ) = 6 + 1 from rfl, lineTraceF_split 6 _ _ 0 1 usq_at5]
    norm_num [lerp, epsilon]
    rw [show (6 : ℕ) = 5 + 1 from rfl, lineTraceF_leaf 5 _ _ 0 1 usq_at4]
    norm_num [lerp]

theorem claim_C4_witness :
    (PointInBSP (Build qSqrt partOk [usqPoly]).nodes
        (Build qSqrt partOk [usqPoly]).rootIndex ⟨1/2, 1/2⟩ = true
      ∧ LineTraceBSPNode (Build qSqrt partOk [usqPoly]).nodes
          (Build qSqrt partOk [usqPoly]).rootIndex ⟨1/2, 1/2⟩ ⟨2, 1/2⟩ 0 1
        = (true, 1/2, 1/2))
    ∧ ((0 : ℚ) ≤ 1
      ∧ LineTraceBSPNode (Build qSqrt partOk [usqPoly]).nodes
          (Build qSqrt partOk [usqPoly]).rootIndex ⟨2, 1/2⟩ ⟨2, 3/4⟩ 0 1
        = (false, 0, 0)) := by
  have hq : PointInBSP (Build qSqrt partOk [usqPoly]).nodes
      (Build qSqrt partOk [usqPoly]).rootIndex ⟨1/2, 1/2⟩ = true := by
    rw [build_usq_nodes]
    show PointInBSP usqNodes 8 ⟨1/2, 1/2⟩ = true
    rw [PointInBSP_eq_QW usq_wf, QW_split usq_wf usq_at8,
      if_neg (by norm_num [Line.PointSide]),
      QW_split usq_wf usq_at7, if_neg (by norm_num [Line.PointSide]),
      QW_split usq_wf usq_at6, if_neg (by norm_num [Line.PointSide]),
      QW_split usq_wf usq_at5, if_neg (by norm_num [Line.PointSide])]
    exact QW_leaf usq_at4 _
  refine ⟨⟨hq, (claim_C4_trace qSqrt partOk [usqPoly] ⟨1/2, 1/2⟩
      ⟨2, 1/2⟩).1 1 hq⟩, by norm_num, ?_⟩
  refine (claim_C4_trace qSqrt partOk [usqPoly] ⟨2, 1/2⟩ ⟨2, 3/4⟩).2 0 1
    (by norm_num) ?_ ?_
  · rw [build_usq_nodes]
    show ∀ (k : Int) (nx ny d : ℚ) (f bk : Int),
      nodeAt usqNodes k = some (.split nx ny d f bk) →
      ∀ t : ℚ, 0 ≤ t → t ≤ 1 →
        epsilon < |nx * (lerp ⟨2, 1/2⟩ ⟨2, 3/4⟩ t).x
          + ny * (lerp ⟨2, 1/2⟩ ⟨2, 3/4⟩ t).y - d|
    intro k nx ny d f bk hat t ht0 ht1
    obtain ⟨hk0, hklt, hget⟩ := nodeAt_some hat
    obtain ⟨n, hn⟩ : ∃ n : ℕ, k.toNat = n := ⟨k.toNat, rfl⟩
    rw [hn] at hklt hget
    have h9 : n < 9 := by simpa [usqNodes] using hklt
    interval_cases n
    · simp [usqNodes] at hget
    · simp [usqNodes] at hget
    · simp [usqNodes] at hget
    · simp [usqNodes] at hget
    · simp [usqNodes] at hget
    · simp [usqNodes] at hget
      obtain ⟨e1, e2, e3, e4, e5⟩ := hget
      subst e1
      subst e2
      subst e3
      rw [lt_abs]
      right
      norm_num [lerp, epsilon]
    · simp [usqNodes] at hget
      obtain ⟨e1, e2, e3, e4, e5⟩ := hget
      subst e1
      subst e2
      subst e3
      rw [lt_abs]
      right
      norm_num [lerp, epsilon]
      linarith
    · simp [usqNodes] at hget
      obtain ⟨e1, e2, e3, e4, e5⟩ := hget
      subst e1
      subst e2
      subst e3
      rw [lt_abs]
      left
      norm_num [lerp, epsilon]
    · simp [usqNodes] at hget
      obtain ⟨e1, e2, e3, e4, e5⟩ := hget
      subst e1
      subst e2
      subst e3
      rw [lt_abs]
      right
      norm_num [lerp, epsilon]
      linarith
  · intro t ht0 ht1
    rw [build_usq_nodes]
    show PointInBSP usqNodes 8 (lerp ⟨2, 1/2⟩ ⟨2, 3/4⟩ t) = false
    rw [PointInBSP_eq_QW usq_wf, QW_split usq_wf usq_at8,
      if_neg (by
        simp only [Line.PointSide, lerp]
        push_neg
        linarith)]
    rw [QW_split usq_wf usq_at7,
      if_pos (by
        simp only [Line.PointSide, lerp]
        norm_num)]
    exact QW_leaf usq_at1 _
